import Mathlib

/-!
Shallow embedding of the travel-offers-comparator repository (Python) and
verification of the frozen claims about it.

Python strings are modelled as Lean `String` / `List Char`; Python floats as `ℚ`;
`None`-returning functions as `Option`.  Regular-expression searches from the
sources are modelled by executable scanners over `List Char` that reproduce the
leftmost-match semantics of `re.search` for the concrete patterns appearing in
the code (for each such pattern the greedy backtracking is provably vacuous, so
a deterministic scanner is exact).  Third-party library calls
(`dateutil.parser.parse`, `difflib.get_close_matches`, `uuid.uuid4`, network
fetches) are oracle parameters.
-/

namespace TravelOffers

/-- Whitespace characters, modelling Python's `str.strip` / regex `\s` for the
character set occurring in the scraped data. -/
def isPySpace (c : Char) : Bool :=
  c = ' ' || c = '\t' || c = '\n' || c = '\r' || c = '\x0b' || c = '\x0c'

/-- Lower-casing of one character, covering ASCII and the Cyrillic range
U+0410..U+042F used by the sources (models Python `str.lower`). -/
def pyLowerChar (c : Char) : Char :=
  if 'A' ≤ c ∧ c ≤ 'Z' then Char.ofNat (c.toNat + 32)
  else if 'А' ≤ c ∧ c ≤ 'Я' then Char.ofNat (c.toNat + 32)
  else if c = 'Ё' then 'ё'
  else c

/-- Upper-casing of one character (models Python `str.upper` on the same ranges). -/
def pyUpperChar (c : Char) : Char :=
  if 'a' ≤ c ∧ c ≤ 'z' then Char.ofNat (c.toNat - 32)
  else if 'а' ≤ c ∧ c ≤ 'я' then Char.ofNat (c.toNat - 32)
  else if c = 'ё' then 'Ё'
  else c

/-- Is the character cased (ASCII or Cyrillic letter)? Used by the `str.title` model. -/
def isCasedChar (c : Char) : Bool :=
  ('a' ≤ c && c ≤ 'z') || ('A' ≤ c && c ≤ 'Z') ||
  ('а' ≤ c && c ≤ 'я') || ('А' ≤ c && c ≤ 'Я') || c = 'ё' || c = 'Ё'

/-- Python `str.lower`. -/
def pyLower (s : String) : String := String.mk (s.toList.map pyLowerChar)

/-- Python `str.strip()` (no arguments): remove leading and trailing whitespace. -/
def pyStrip (s : String) : String :=
  String.mk (((s.toList.dropWhile isPySpace).reverse.dropWhile isPySpace).reverse)

/-- Python substring test `needle in hay`. -/
def pyIn (needle hay : String) : Bool :=
  decide (needle.toList <:+: hay.toList)

/-- Python `str.title` (used as the fallback of `normalize_destination`):
upper-case every cased character that follows a non-cased character. -/
def pyTitleGo : Bool → List Char → List Char
  | _, [] => []
  | prevCased, c :: rest =>
      (if isCasedChar c then (if prevCased then pyLowerChar c else pyUpperChar c) else c) ::
        pyTitleGo (isCasedChar c) rest

/-- Python `str.title`. -/
def pyTitle (s : String) : String := String.mk (pyTitleGo false s.toList)

/-- Number of whitespace-separated words, modelling `len(s.split())`. -/
def wordCount (l : List Char) : ℕ :=
  (l.foldl
    (fun (st : ℕ × Bool) c =>
      if isPySpace c then (st.1, false)
      else (if st.2 then st.1 else st.1 + 1, true))
    (0, false)).1

/-- Numeric value of a list of decimal digit characters (most significant first). -/
def natOfDigits (ds : List Char) : ℕ :=
  ds.foldl (fun a c => 10 * a + (c.toNat - '0'.toNat)) 0

/-- Rational value of a decimal literal with integer part `ip` and fractional
part `fp` (both digit lists), e.g. `12.5` — the value is
`(ip * 10^k + fp) / 10^k` for `k` the number of fractional digits; models
Python `float` on regex captures of shape `\d+\.?\d*`.  Built with `mkRat`
so that it evaluates inside the kernel. -/
def ratOfNumParts (ip fp : List Char) : ℚ :=
  mkRat (natOfDigits ip * 10 ^ fp.length + natOfDigits fp) (10 ^ fp.length)

/-- Exact rational multiplication, phrased with `mkRat` so that it evaluates
inside the kernel; `ratMul_eq` identifies it with `*`. -/
def ratMul (a b : ℚ) : ℚ := mkRat (a.num * b.num) (a.den * b.den)

theorem ratMul_eq (a b : ℚ) : ratMul a b = a * b := (Rat.mul_eq_mkRat a b).symm

/-- Python `round(x, 2)`: round to 2 decimal places, that is
`⌊100x + 1/2⌋ / 100` (ties, where Python rounds half to even, do not arise in
the claims; we round half up).  Since `x = num/den` with `den > 0`, the floor
is the floor division `(200 num + den) fdiv (2 den)`. -/
def round2 (q : ℚ) : ℚ := mkRat (Int.fdiv (200 * q.num + q.den) (2 * q.den)) 100

/-- Exchange rate `BGN_TO_EUR = 0.511292981` from `process_offers.py`. -/
def BGN_TO_EUR : ℚ := mkRat 511292981 1000000000

/-- Exchange rate `USD_TO_EUR = 0.85` from `process_offers.py`. -/
def USD_TO_EUR : ℚ := mkRat 85 100

/-! ### A deterministic model of the `re.search` calls of the sources -/

/-- Drop leading whitespace (regex `\s*`). -/
def dropSpaces (l : List Char) : List Char := l.dropWhile isPySpace

/-- Greedy match of `\d+\.?\d*` at the head of `l`: returns
(integer digits, fractional digits, whether a dot was consumed, rest). -/
def matchNum (l : List Char) : Option (List Char × List Char × Bool × List Char) :=
  if (l.takeWhile Char.isDigit).isEmpty then none
  else if l.dropWhile Char.isDigit ≠ [] ∧ (l.dropWhile Char.isDigit).headI = '.' then
    some (l.takeWhile Char.isDigit,
      (l.dropWhile Char.isDigit).tail.takeWhile Char.isDigit, true,
      (l.dropWhile Char.isDigit).tail.dropWhile Char.isDigit)
  else some (l.takeWhile Char.isDigit, [], false, l.dropWhile Char.isDigit)

/-- Greedy match of `\d+(?:\.\d+)?` at the head of `l` (the `$`-price pattern):
the fractional part must be nonempty for the dot to be consumed. -/
def matchNumUsd (l : List Char) : Option (List Char × List Char × Bool × List Char) :=
  if (l.takeWhile Char.isDigit).isEmpty then none
  else if l.dropWhile Char.isDigit ≠ [] ∧ (l.dropWhile Char.isDigit).headI = '.' ∧
      ¬((l.dropWhile Char.isDigit).tail.takeWhile Char.isDigit).isEmpty then
    some (l.takeWhile Char.isDigit,
      (l.dropWhile Char.isDigit).tail.takeWhile Char.isDigit, true,
      (l.dropWhile Char.isDigit).tail.dropWhile Char.isDigit)
  else some (l.takeWhile Char.isDigit, [], false, l.dropWhile Char.isDigit)

/-- Leftmost-match scanner: try the matcher at every position, left to right,
returning the first success (the semantics of `re.search`). -/
def firstMatch {α : Type} (f : List Char → Option α) : List Char → Option α
  | [] => none
  | c :: rest =>
      match f (c :: rest) with
      | some a => some a
      | none => firstMatch f rest

/-- Matcher for a pattern `NUM \s* (tok₁|tok₂|…)` at the head of the input,
returning the numeric value of the captured number.  `numf` is the number
matcher (`matchNum` or `matchNumUsd`). -/
def matchNumTokAt (numf : List Char → Option (List Char × List Char × Bool × List Char))
    (toks : List (List Char)) (l : List Char) : Option ℚ :=
  match numf l with
  | none => none
  | some (ip, fp, _, rest) =>
      if toks.any (fun t => t.isPrefixOf (dropSpaces rest)) then some (ratOfNumParts ip fp)
      else none

/-- The token alternatives of `(EUR|€)`, lower-cased. -/
def eurToks : List (List Char) := [['e', 'u', 'r'], ['€']]

/-- The token alternatives of `(BGN|лв\.?)`, lower-cased (the optional
trailing dot does not affect the capture). -/
def bgnToks : List (List Char) := [['b', 'g', 'n'], ['л', 'в']]

/-- The token of `лв\.?` (case sensitive, Angel Travel branch). -/
def lvToks : List (List Char) := [['л', 'в']]

/-- The token of `\$`. -/
def usdToks : List (List Char) := [['$']]

/-- `re.search(r'(\d+\.?\d*)\s*(EUR|€)', s, re.IGNORECASE)` run on the
lower-cased text. -/
def findEur (l : List Char) : Option ℚ :=
  firstMatch (matchNumTokAt matchNum eurToks) l

/-- `re.search(r'(\d+\.?\d*)\s*(BGN|лв\.?)', s, re.IGNORECASE)` run on the
lower-cased text. -/
def findBgn (l : List Char) : Option ℚ :=
  firstMatch (matchNumTokAt matchNum bgnToks) l

/-- `re.search(r'(\d+\.?\d*)\s*лв\.?', s)` (case sensitive, Angel Travel branch). -/
def findAngelBgn (l : List Char) : Option ℚ :=
  firstMatch (matchNumTokAt matchNum lvToks) l

/-- `re.search(r'(\d+(?:\.\d+)?)\s*\$', s)`. -/
def findUsd (l : List Char) : Option ℚ :=
  firstMatch (matchNumTokAt matchNumUsd usdToks) l

/-- Consume one optional leading dot (the regex `\.?`). -/
def dropDot (r : List Char) : List Char :=
  if r ≠ [] ∧ r.headI = '.' then r.tail else r

/-- Matcher for the Angel Travel combined format
`(\d+\.?\d*)\s*лв\.?\s*/\s*(\d+\.?\d*)\s*EUR` at the head of the input;
returns the second capture. -/
def matchAngelCombinedAt (l : List Char) : Option ℚ :=
  match matchNum l with
  | none => none
  | some (_, _, _, r1) =>
      if ['л', 'в'].isPrefixOf (dropSpaces r1) then
        match dropSpaces (dropDot ((dropSpaces r1).drop 2)) with
        | '/' :: r6 =>
            match matchNum (dropSpaces r6) with
            | none => none
            | some (ip2, fp2, _, r8) =>
                if ['E', 'U', 'R'].isPrefixOf (dropSpaces r8) then
                  some (ratOfNumParts ip2 fp2)
                else none
        | _ => none
      else none

/-- `re.search(r'(\d+\.?\d*)\s*лв\.?\s*/\s*(\d+\.?\d*)\s*EUR', s)`. -/
def findAngelCombined (l : List Char) : Option ℚ :=
  firstMatch matchAngelCombinedAt l

/-- The stripped price string, as a character list. -/
def oriStrip (s : String) : List Char := (pyStrip s).toList

/-- The stripped and lower-cased price string (the text the `re.IGNORECASE`
searches are modelled on). -/
def lowStrip (s : String) : List Char := (pyLower (pyStrip s)).toList

/-- The Angel Travel branch of `parse_price`: the combined `лв / EUR` format,
then the `лв` fallback converted at `BGN_TO_EUR`. -/
def parse_price_angel (s : String) : Option ℚ :=
  match findAngelCombined (oriStrip s) with
  | some q => some q
  | none =>
      match findAngelBgn (oriStrip s) with
      | some b => some (round2 (ratMul b BGN_TO_EUR))
      | none => none

/-- The non-Angel branch of `parse_price`: `BGN`/`лв` converted at
`BGN_TO_EUR`, then `$` converted at `USD_TO_EUR`. -/
def parse_price_other (s : String) : Option ℚ :=
  match findBgn (lowStrip s) with
  | some b => some (round2 (ratMul b BGN_TO_EUR))
  | none =>
      match findUsd (oriStrip s) with
      | some u => some (round2 (ratMul u USD_TO_EUR))
      | none => none

/-- `parse_price` from `process_offers.py`: parse a price string to EUR.
The EUR search comes first for every agency; then the branches split on
`agency == 'Angel Travel'`. -/
def parse_price (price_str agency : String) : Option ℚ :=
  match findEur (lowStrip price_str) with
  | some q => some q
  | none =>
      if agency = "Angel Travel" then parse_price_angel price_str
      else parse_price_other price_str

/-! ### `parse_duration` from `process_offers.py` -/

/-- Matcher for `(\d+)` at the head of the input. -/
def matchNatAt (l : List Char) : Option ℕ :=
  let ds := l.takeWhile Char.isDigit
  if ds.isEmpty then none else some (natOfDigits ds)

/-- `re.search(r'(\d+)', s)`: the first number in `s`. -/
def findNat (l : List Char) : Option ℕ := firstMatch matchNatAt l

/-- Matcher for `(\d+)\s*TOK` at the head of the input, for one of the
alternative tokens in `toks`. -/
def matchNatTokAt (toks : List (List Char)) (l : List Char) : Option ℕ :=
  let ds := l.takeWhile Char.isDigit
  if ds.isEmpty then none
  else
    let r := dropSpaces (l.dropWhile Char.isDigit)
    if toks.any (fun t => t.isPrefixOf r) then some (natOfDigits ds) else none

/-- `re.search(r'(\d+)\s*TOK', s)` for alternative tokens `toks`. -/
def findNatTok (toks : List (List Char)) (l : List Char) : Option ℕ :=
  firstMatch (matchNatTokAt toks) l

/-- The token `нощув` as a character list. -/
def tokNight : List Char := ['н', 'о', 'щ', 'у', 'в']

/-- The token `дни` as a character list. -/
def tokDays : List Char := ['д', 'н', 'и']

/-- The token `day` (the pattern `days?` reduces to the prefix `day`). -/
def tokDaysEn : List Char := ['d', 'a', 'y']

/-- `parse_duration` from `process_offers.py`.  The `agency` argument is
present in the source but unused. -/
def parse_duration (duration_str title description agency : String) : Option ℕ :=
  let _ := agency
  match (if duration_str = "" then none else findNat duration_str.toList) with
  | some days =>
      if pyIn "нощув" (pyLower duration_str) then some (days + 1) else some days
  | none =>
      let tl := (pyLower title).toList
      match (if title = "" then none else findNatTok [tokNight] tl) with
      | some n => some (n + 1)
      | none =>
          match (if title = "" then none else findNatTok [tokDays] tl) with
          | some n => some n
          | none =>
              match (if title = "" then none else findNatTok [tokDaysEn] tl) with
              | some n => some n
              | none =>
                  let dl := (pyLower description).toList
                  match (if description = "" then none else findNatTok [tokNight] dl) with
                  | some n => some (n + 1)
                  | none =>
                      match (if description = "" then none else findNatTok [tokDays] dl) with
                      | some n => some n
                      | none => none

/-! ### String splitting (model of Python `str.split(sep)`) -/

/-- Find the first occurrence of `sep` in `l`: returns the part before and the
part after the separator. -/
def splitFirst (sep : List Char) : List Char → Option (List Char × List Char)
  | [] => none
  | c :: rest =>
      if sep.isPrefixOf (c :: rest) then some ([], (c :: rest).drop sep.length)
      else
        match splitFirst sep rest with
        | some (a, b) => some (c :: a, b)
        | none => none

theorem splitFirst_length {sep : List Char} :
    ∀ {l a b : List Char}, splitFirst sep l = some (a, b) →
      a.length + sep.length + b.length = l.length := by
  intro l
  induction l with
  | nil => intro a b h; simp [splitFirst] at h
  | cons c rest ih =>
      intro a b h
      simp only [splitFirst] at h
      by_cases hp : sep.isPrefixOf (c :: rest)
      · simp only [hp, if_pos] at h
        obtain ⟨ha, hb⟩ := Prod.mk.injEq .. ▸ (Option.some.injEq .. ▸ h)
        have hle : sep.length ≤ (c :: rest).length :=
          (List.isPrefixOf_iff_prefix.mp hp).length_le
        subst ha hb
        simp only [List.length_nil, List.length_drop, List.length_cons] at hle ⊢
        omega
      · simp only [hp, if_neg, Bool.false_eq_true, not_false_iff] at h
        cases hsf : splitFirst sep rest with
        | none => rw [hsf] at h; exact absurd h (by simp)
        | some p =>
            rw [hsf] at h
            obtain ⟨a', b'⟩ := p
            have := ih hsf
            simp only [Option.some.injEq, Prod.mk.injEq] at h
            obtain ⟨ha, hb⟩ := h
            subst hb
            rw [← ha]
            simp at this ⊢
            omega

/-- The split recursion, on an explicit fuel that bounds the number of
separator occurrences: each occurrence of a nonempty separator consumes at
least one character, so fuel `l.length + 1` is always enough
(`pySplitOn_eq` below recovers the natural recursion).  The structural
recursion keeps the function reducible inside the kernel. -/
def pySplitFuel (sep : List Char) : ℕ → List Char → List (List Char)
  | 0, l => [l]
  | fuel + 1, l =>
      match splitFirst sep l with
      | none => [l]
      | some (a, b) => a :: pySplitFuel sep fuel b

theorem pySplitFuel_congr (sep : List Char) (hs : sep ≠ []) :
    ∀ f1 f2 l, l.length < f1 → l.length < f2 →
      pySplitFuel sep f1 l = pySplitFuel sep f2 l := by
  intro f1
  induction f1 with
  | zero => intro f2 l h1; omega
  | succ f1 ih =>
      intro f2 l h1 h2
      cases f2 with
      | zero => omega
      | succ f2 =>
          show (match splitFirst sep l with
            | none => [l]
            | some (a, b) => a :: pySplitFuel sep f1 b) =
            (match splitFirst sep l with
            | none => [l]
            | some (a, b) => a :: pySplitFuel sep f2 b)
          cases h : splitFirst sep l with
          | none => rfl
          | some p =>
              obtain ⟨a, b⟩ := p
              have hl := splitFirst_length h
              have hsep : 0 < sep.length := List.length_pos.mpr hs
              simp only
              rw [ih f2 b (by omega) (by omega)]

/-- Python `s.split(sep)` for a nonempty separator, on character lists. -/
def pySplitOn (sep : List Char) (hs : sep ≠ []) (l : List Char) : List (List Char) :=
  let _ := hs
  pySplitFuel sep (l.length + 1) l

/-- `pySplitOn` satisfies the natural recursion of repeated splitting at the
first separator occurrence. -/
theorem pySplitOn_eq (sep : List Char) (hs : sep ≠ []) (l : List Char) :
    pySplitOn sep hs l =
      match splitFirst sep l with
      | none => [l]
      | some (a, b) => a :: pySplitOn sep hs b := by
  show (match splitFirst sep l with
    | none => [l]
    | some (a, b) => a :: pySplitFuel sep l.length b) = _
  cases h : splitFirst sep l with
  | none => rfl
  | some p =>
      obtain ⟨a, b⟩ := p
      have hl := splitFirst_length h
      have hsep : 0 < sep.length := List.length_pos.mpr hs
      simp only
      exact congrArg (a :: ·) (pySplitFuel_congr sep hs _ _ b (by omega) (by omega))

/-- Python `s.split(sep)` on strings (the empty-separator branch is never used). -/
def pySplit (sep s : String) : List String :=
  if h : sep.toList = [] then [s]
  else (pySplitOn sep.toList h s.toList).map String.mk

/-! ### `parse_dates` from `process_offers.py` -/

/-- Oracle environment for the third-party calls of `process_offers.py`:
`mappings` is the content of `destination_mappings.json`, `fuzzy` models
`difflib.get_close_matches` (returning one of the offered keys), `dateParse`
models `dateutil.parser.parse(·, dayfirst=True).date().isoformat()` (`none`
models an exception), and `uuid` models the successive results of
`uuid.uuid4()`. -/
structure Env where
  mappings : List (String × String)
  fuzzy : String → List String → Option String
  dateParse : String → Option String
  uuid : ℕ → String

/-- Association-list lookup, modelling Python `dict` access by key. -/
def assocLookup (m : List (String × String)) (k : String) : Option String :=
  (m.find? (fun kv => kv.1 == k)).map (·.2)

/-- The check `re.match(r'^\d+\s+(дни|ден|days?|nights?|нощувки)$', s, re.IGNORECASE)`
of `_parse_date_string` (duration-only strings). -/
def isDurationOnly (s : String) : Bool :=
  let l := (pyLower s).toList
  let ds := l.takeWhile Char.isDigit
  if ds.isEmpty then false
  else
    let r := l.dropWhile Char.isDigit
    if (r.takeWhile isPySpace).isEmpty then false
    else
      let r2 := r.dropWhile isPySpace
      r2 == ['д', 'н', 'и'] || r2 == ['д', 'е', 'н'] ||
      r2 == ['d', 'a', 'y'] || r2 == ['d', 'a', 'y', 's'] ||
      r2 == ['n', 'i', 'g', 'h', 't'] || r2 == ['n', 'i', 'g', 'h', 't', 's'] ||
      r2 == ['н', 'о', 'щ', 'у', 'в', 'к', 'и']

/-- The check `re.match(r'\d{4}-\d{2}-\d{2}', s)` (ISO date at the start). -/
def startsIso : List Char → Bool
  | a :: b :: c :: d :: '-' :: e :: f :: '-' :: g :: h :: _ =>
      a.isDigit && b.isDigit && c.isDigit && d.isDigit &&
      e.isDigit && f.isDigit && g.isDigit && h.isDigit
  | _ => false

/-- `_infer_angel_travel_dates` from `process_offers.py`. -/
def inferAngelDates (title : String) : Option String × Option String :=
  let tl := pyLower title
  if pyIn "нова година" tl || pyIn "new year" tl then (some "2025-12-31", some "2026-01-01")
  else if pyIn "коледа" tl || pyIn "christmas" tl then (some "2025-12-25", some "2025-12-26")
  else if pyIn "свети валентин" tl || pyIn "valentine" tl then (some "2026-02-14", none)
  else if pyIn "карнавал" tl || pyIn "carnival" tl then (some "2026-02-01", some "2026-02-05")
  else (none, none)

/-- Matcher for `Дати:\s*([^,\n]+)` at the head of the input (group, stripped). -/
def matchDatiAt (l : List Char) : Option String :=
  if ['Д', 'а', 'т', 'и', ':'].isPrefixOf l then
    let r := dropSpaces (l.drop 5)
    let cap := r.takeWhile (fun c => c ≠ ',' && c ≠ '\n')
    if cap.isEmpty then none else some (pyStrip (String.mk cap))
  else none

/-- `_parse_date_string` from `process_offers.py`. -/
def parseDateString (env : Env) (ds0 : String) : Option String × Option String :=
  let ds := pyStrip ds0
  if isDurationOnly ds then (none, none)
  else if startsIso ds.toList then
    if pyIn " - " ds then
      let parts := pySplit " - " ds
      let e :=
        if parts.length > 1 && pyStrip (parts.getD 1 "") != "" then
          some (pyStrip (parts.getD 1 ""))
        else none
      (some (pyStrip (parts.headI)), e)
    else (some ds, none)
  else
    let ds2 := if pyIn "," ds then pyStrip ((pySplit "," ds).headI) else ds
    if pyIn " - " ds2 then
      let parts := pySplit " - " ds2
      match env.dateParse parts.headI with
      | none => (none, none)
      | some st =>
          if parts.length > 1 && pyStrip (parts.getD 1 "") != "" then
            match env.dateParse (parts.getD 1 "") with
            | none => (none, none)
            | some en => (some st, some en)
          else (some st, none)
    else
      match env.dateParse ds2 with
      | some st => (some st, none)
      | none => (none, none)

/-- `parse_dates` from `process_offers.py`. -/
def parse_dates (env : Env) (dates_str description agency title : String) :
    Option String × Option String :=
  let ds := pyStrip dates_str
  let desc := pyStrip description
  let ds :=
    if agency = "Aratur" && desc != "" then desc
    else if agency = "Dari Tour" then
      if ds = "" && desc != "" then
        match firstMatch matchDatiAt desc.toList with
        | some m => m
        | none => ds
      else ds
    else ds
  if agency = "Angel Travel" && ds == "" then
    match inferAngelDates title with
    | (some st, e) => (some st, e)
    | (none, _) => (none, none)
  else if ds = "" then (none, none)
  else parseDateString env ds

/-! ### `normalize_destination` from `process_offers.py` -/

/-- The prefix-stripping loop of `normalize_destination` (first match wins). -/
def stripDestPrefixes : List String → String → String
  | [], d => d
  | p :: ps, d =>
      if p.toList.isPrefixOf d.toList then
        pyStrip (String.mk (d.toList.drop p.toList.length))
      else stripDestPrefixes ps d

/-- `normalize_destination` from `process_offers.py`. -/
def normalize_destination (env : Env) (dest0 : String) : String :=
  let d := stripDestPrefixes ["oferti ", "pochivki ", "ekskurziya do ", "po4ivki "]
    (pyStrip (pyLower dest0))
  match assocLookup env.mappings d with
  | some v => v
  | none =>
      match env.mappings.find? (fun kv => pyIn kv.1 d || pyIn d kv.1) with
      | some kv => kv.2
      | none =>
          match env.fuzzy d (env.mappings.map (·.1)) with
          | some k => (assocLookup env.mappings k).getD (pyTitle d)
          | none => pyTitle d

/-! ### `standardize_offer`, `is_valid_travel_offer`, `process_files` -/

/-- A scraped offer as read from a per-agency JSON file: a Python dict of
string fields, modelled as an association list. -/
abbrev RawOffer := List (String × String)

/-- `offer.get(k, '')` on a raw offer. -/
def rawGet (o : RawOffer) (k : String) : String :=
  ((o.find? (fun p => p.1 == k)).map (·.2)).getD ""

/-- A JSON value of a standardized offer (string, float, int or `None`). -/
inductive Val where
  | vStr : String → Val
  | vNum : ℚ → Val
  | vInt : ℕ → Val
  | vNone : Val
deriving DecidableEq

/-- A standardized offer: the dict built by `standardize_offer`. -/
abbrev StdOffer := List (String × Val)

/-- `offer.get(k)` on a standardized offer. -/
def dictGet (o : StdOffer) (k : String) : Option Val :=
  (o.find? (fun p => p.1 == k)).map (·.2)

/-- `offer.get(k, '')` on a standardized offer, for string fields. -/
def dictGetStr (o : StdOffer) (k : String) : String :=
  match dictGet o k with
  | some (.vStr s) => s
  | _ => ""

/-- `offer.get(k)` on a standardized offer, for numeric-or-`None` fields. -/
def dictGetNum (o : StdOffer) (k : String) : Option ℚ :=
  match dictGet o k with
  | some (.vNum q) => some q
  | _ => none

/-- Encode an optional string as a JSON value. -/
def optValStr : Option String → Val
  | some s => .vStr s
  | none => .vNone

/-- Encode an optional float as a JSON value. -/
def optValNum : Option ℚ → Val
  | some q => .vNum q
  | none => .vNone

/-- Encode an optional int as a JSON value. -/
def optValInt : Option ℕ → Val
  | some n => .vInt n
  | none => .vNone

/-- `standardize_offer` from `process_offers.py`; `uid` is the fresh
`str(uuid.uuid4())` of this call. -/
def standardize_offer (env : Env) (uid : String) (offer : RawOffer) (agency : String) :
    StdOffer :=
  let title := pyStrip (rawGet offer "title")
  let link := pyStrip (rawGet offer "link")
  let raw_destination :=
    if pyStrip (rawGet offer "destination") = "" then title
    else pyStrip (rawGet offer "destination")
  let destination := normalize_destination env raw_destination
  let scraped_at := rawGet offer "scrapedAt"
  let price_eur := parse_price (rawGet offer "price") agency
  let dse := parse_dates env (rawGet offer "dates") (rawGet offer "description") agency title
  let duration_days :=
    parse_duration (rawGet offer "duration") title (rawGet offer "description") agency
  [("id", .vStr uid),
   ("agency", .vStr agency),
   ("title", .vStr title),
   ("destination", .vStr destination),
   ("price_eur", optValNum price_eur),
   ("dates_start", optValStr dse.1),
   ("dates_end", optValStr dse.2),
   ("duration_days", optValInt duration_days),
   ("link", .vStr link),
   ("scraped_at", .vStr scraped_at)]

/-- The `excluded_terms` list of `is_valid_travel_offer`. -/
def excludedTerms : List String :=
  ["instagram", "инстаграм", "facebook", "twitter", "tiktok", "youtube",
   "social", "promo", "реклама", "промо", "giveaway", "contest",
   "competition", "розыгрыш", "конкурс", "лотария", "лотарий"]

/-- The `allowed_single_words` list of `is_valid_travel_offer`. -/
def allowedSingleWords : List String :=
  ["албания", "гърция", "турция", "испания", "италия", "франция",
   "египет", "тунис", "мароко", "българия", "сърбия", "македония",
   "черна гора", "хърватия", "грузия", "армения", "азербайджан",
   "киргизстан", "таджикистан", "туркменистан", "узбекистан", "казахстан",
   "бразилия", "аржентина", "уругвай", "доминикана", "зимбабве",
   "танзания", "замбия", "ботсвана", "намибия", "юар", "мозамбик",
   "занзибар", "мавриций", "сешели", "мадагаскар", "реюнион",
   "комори", "кирибати", "науру", "палау", "маршалови острови",
   "микронезия", "вануату", "соломонови острови", "папуа нова гвинея",
   "източен тимор", "бруней", "източен тимор", "лаос", "камбоджа",
   "мианмар", "непал", "бутан", "молдова", "украйна", "беларус",
   "балтийски държави", "скандинавия", "иберия", "балкани",
   "кавказ", "централна азия", "далечина изток", "югоизточна азия"]

/-- The inline country list of the final `any(...)` check of
`is_valid_travel_offer`. -/
def coreCountries : List String :=
  ["албания", "гърция", "турция", "испания", "италия", "франция",
   "египет", "тунис", "мароко", "българия"]

/-- `is_valid_travel_offer` from `process_offers.py`. -/
def is_valid_travel_offer (offer : StdOffer) : Bool :=
  let tl := pyLower (dictGetStr offer "title")
  let dl := pyLower (dictGetStr offer "destination")
  if excludedTerms.any (fun t => pyIn t tl || pyIn t dl) then false
  else if wordCount tl.toList ≤ 2 &&
      !(allowedSingleWords.contains tl) && tl.length < 15 &&
      !(coreCountries.any (fun c => pyIn c tl)) then false
  else
    match dictGetNum offer "price_eur" with
    | none => false
    | some q => if q = 0 then false else true

/-- The `agency_map` dict of `process_files`. -/
def agencyMap : List (String × String) :=
  [("angel_travel_scrape.json", "Angel Travel"),
   ("aratur.json", "Aratur"),
   ("dari_tour_scraped.json", "Dari Tour"),
   ("luxtravel.json", "Luxtravel"),
   ("profitours.json", "Profitours"),
   ("aventura.json", "Aventura"),
   ("bohemia.json", "Bohemia"),
   ("teztour.json", "Teztour")]

/-- `file_path.split('/')[-1]`. -/
def baseName (p : String) : String := (pySplit "/" p).getLastD ""

/-- `agency_map.get(file_path.split('/')[-1], 'Unknown')`. -/
def agencyFor (p : String) : String := (assocLookup agencyMap (baseName p)).getD "Unknown"

/-- The inner loop of `process_files` over one parsed JSON file: standardize
each offer and keep it when `is_valid_travel_offer` accepts it.  `n0` counts
the `uuid.uuid4()` calls made so far. -/
def process_file (env : Env) (n0 : ℕ) (agency : String) : List RawOffer → List StdOffer
  | [] => []
  | o :: rest =>
      let s := standardize_offer env (env.uuid n0) o agency
      (if is_valid_travel_offer s then [s] else []) ++ process_file env (n0 + 1) agency rest

/-- The outer loop of `process_files`; a file whose JSON failed to load
(`none`) is skipped by the `except` clause. -/
def process_go (env : Env) (n0 : ℕ) : List (String × Option (List RawOffer)) → List StdOffer
  | [] => []
  | (_, none) :: rest => process_go env n0 rest
  | (fp, some offers) :: rest =>
      process_file env n0 (agencyFor fp) offers ++ process_go env (n0 + offers.length) rest

/-- `process_files` from `process_offers.py`: each input is a file path
together with the parsed content of that JSON file (`none` when loading
raised). -/
def process_files (env : Env) (files : List (String × Option (List RawOffer))) :
    List StdOffer :=
  process_go env 0 files

/-! ### `DariTourScraper` / `AratourScraper` (travel-comparator/python) -/

/-- The `DariTourOffer` dataclass of `dari_tour_scraper.py`. -/
structure DariTourOffer where
  title : String
  link : String
  price : String
  dates : String
  destination : String
  scraped_at : String
deriving DecidableEq

/-- The deduplication key `(offer.title, offer.link)` of `scrape_all_offers`. -/
def dKey (o : DariTourOffer) : String × String := (o.title, o.link)

/-- The deduplication loop of `DariTourScraper.scrape_all_offers` (lines
552-559): keep an offer when its `(title, link)` key has not been seen. -/
def dedupGo (seen : List (String × String)) : List DariTourOffer → List DariTourOffer
  | [] => []
  | o :: rest =>
      if dKey o ∈ seen then dedupGo seen rest
      else o :: dedupGo (dKey o :: seen) rest

/-- The duplicate-removal step of `DariTourScraper.scrape_all_offers`. -/
def dedup_offers (l : List DariTourOffer) : List DariTourOffer := dedupGo [] l

/-- The record written for one offer by `DariTourScraper.save_results`. -/
def dariSaveRecord (o : DariTourOffer) : List (String × String) :=
  [("title", o.title), ("link", o.link), ("price", o.price),
   ("dates", o.dates), ("destination", o.destination)]

/-- The JSON array written by `DariTourScraper.save_results`. -/
def dari_save_results (offers : List DariTourOffer) : List (List (String × String)) :=
  offers.map dariSaveRecord

/-- The fields of the `AratourOffer` dataclass used by `save_results`
(`aratour_scraper.py`); the detail fields do not appear in the output. -/
structure AratourOffer where
  title : String
  link : String
  price : String
  description : String
  destination : String
  dates : String
  duration : String
  scraped_at : String
  program_info : String
  price_includes : List String
  price_excludes : List String
  hotel_titles : List String
  booking_conditions : String
deriving DecidableEq

/-- The record written for one offer by `AratourScraper.save_results`. -/
def aratourSaveRecord (o : AratourOffer) : List (String × String) :=
  [("title", o.title), ("link", o.link), ("price", o.price), ("dates", o.dates)]

/-- The JSON array written by `AratourScraper.save_results`. -/
def aratour_save_results (offers : List AratourOffer) : List (List (String × String)) :=
  offers.map aratourSaveRecord

/-! ### `analyze_dari_tour_data.py` -/

/-- The date pattern of `analyze_offer_dates`: one or two digits, a separator
(dot, slash or dash), one or two digits, a separator, four digits, optionally
followed by `\s*-\s*` and a second such date, anchored at both ends.  This
helper matches one `DD sep MM sep YYYY` block at the head and returns the rest. -/
def matchDariDate (l : List Char) : Option (List Char) :=
  let ds := l.takeWhile Char.isDigit
  if ds.length = 1 ∨ ds.length = 2 then
    match l.dropWhile Char.isDigit with
    | s1 :: r1 =>
        if s1 = '.' ∨ s1 = '/' ∨ s1 = '-' then
          let ms := r1.takeWhile Char.isDigit
          if ms.length = 1 ∨ ms.length = 2 then
            match r1.dropWhile Char.isDigit with
            | s2 :: r2 =>
                if s2 = '.' ∨ s2 = '/' ∨ s2 = '-' then
                  let ys := r2.takeWhile Char.isDigit
                  if ys.length = 4 then some (r2.dropWhile Char.isDigit) else none
                else none
            | [] => none
          else none
        else none
    | [] => none
  else none

/-- Full match of the `analyze_offer_dates` date pattern. -/
def dariDatePat (l : List Char) : Bool :=
  match matchDariDate l with
  | none => false
  | some r =>
      if r.isEmpty then true
      else
        match (dropSpaces r) with
        | '-' :: r2 =>
            match matchDariDate (dropSpaces r2) with
            | some r3 => r3.isEmpty
            | none => false
        | _ => false

/-- The pattern `^\d+(?:[.,]\d{2})?\s*лв\.?$` of `analyze_offer_prices`. -/
def dariPricePat (l : List Char) : Bool :=
  let ds := l.takeWhile Char.isDigit
  if ds.isEmpty then false
  else
    let r1 := l.dropWhile Char.isDigit
    let r2 :=
      match r1 with
      | c :: d1 :: d2 :: rest =>
          if (c = '.' || c = ',') && d1.isDigit && d2.isDigit &&
              !(match rest with | e :: _ => e.isDigit | [] => false) then rest
          else r1
      | _ => r1
    match dropSpaces r2 with
    | 'л' :: 'в' :: rest => rest == [] || rest == ['.']
    | _ => false

/-- Unsigned decimal parser underlying the `float(s)` model. -/
def pyFloatAbs (l : List Char) : Option ℚ :=
  match l.dropWhile Char.isDigit with
  | [] =>
      if (l.takeWhile Char.isDigit).isEmpty then none
      else some (ratOfNumParts (l.takeWhile Char.isDigit) [])
  | '.' :: r2 =>
      if r2.dropWhile Char.isDigit ≠ [] then none
      else if (l.takeWhile Char.isDigit).isEmpty ∧ (r2.takeWhile Char.isDigit).isEmpty then none
      else some (ratOfNumParts (l.takeWhile Char.isDigit) (r2.takeWhile Char.isDigit))
  | _ => none

/-- Model of Python `float(s)` for the plain decimal strings produced by the
price-normalization chain of `analyze_offer_prices`. -/
def pyFloat (s : String) : Option ℚ :=
  match (pyStrip s).toList with
  | '-' :: r => (pyFloatAbs r).map (fun q => -q)
  | '+' :: r => pyFloatAbs r
  | l => pyFloatAbs l

/-- The numeric extraction
`float(price.replace('лв.', '').replace('лв', '').replace(',', '.').strip())`
of `analyze_offer_prices`. -/
def dariNumericPrice (p : String) : Option ℚ :=
  pyFloat (((p.replace "лв." "").replace "лв" "").replace "," ".")

/-- The loop of `analyze_offer_dates`, classifying the offer at index `i` and
the following ones; returns `(empty_dates, invalid_date_format, valid_dates)`. -/
def analyzeDatesGo (i : ℕ) : List RawOffer → List ℕ × List ℕ × List ℕ
  | [] => ([], [], [])
  | o :: rest =>
      let (e, iv, v) := analyzeDatesGo (i + 1) rest
      let d := pyStrip (rawGet o "dates")
      if d = "" then (i :: e, iv, v)
      else if ¬ dariDatePat d.toList then (e, i :: iv, v)
      else (e, iv, i :: v)

/-- `analyze_offer_dates` from `analyze_dari_tour_data.py`:
`(empty_dates, invalid_date_format, valid_dates)`. -/
def analyze_offer_dates (offers : List RawOffer) : List ℕ × List ℕ × List ℕ :=
  analyzeDatesGo 0 offers

/-- The loop of `analyze_offer_prices`; returns
`(empty_prices, invalid_price_format, suspiciously_low, suspiciously_high, valid_prices)`. -/
def analyzePricesGo (i : ℕ) :
    List RawOffer → List ℕ × List ℕ × List ℕ × List ℕ × List ℕ
  | [] => ([], [], [], [], [])
  | o :: rest =>
      let (e, iv, lo, hi, v) := analyzePricesGo (i + 1) rest
      let p := pyStrip (rawGet o "price")
      if p = "" then (i :: e, iv, lo, hi, v)
      else if ¬ dariPricePat p.toList then (e, i :: iv, lo, hi, v)
      else
        match dariNumericPrice p with
        | none => (e, i :: iv, lo, hi, v)
        | some q =>
            if q < 100 then (e, iv, i :: lo, hi, v)
            else if q > 10000 then (e, iv, lo, i :: hi, v)
            else (e, iv, lo, hi, i :: v)

/-- `analyze_offer_prices` from `analyze_dari_tour_data.py`. -/
def analyze_offer_prices (offers : List RawOffer) :
    List ℕ × List ℕ × List ℕ × List ℕ × List ℕ :=
  analyzePricesGo 0 offers

/-! ### `BohemiaScraper.enrich_offers_with_dates` (`bohemia_scraper_v2.py`) -/

/-- The `BaseOffer` dataclass of `playwright_scraper_base.py` (the shape of
`BohemiaOffer`). -/
structure BOffer where
  title : String
  link : String
  price : String
  dates : String
  destination : String
  scraped_at : String
deriving DecidableEq

/-- The truthiness filter `isinstance(result, tuple) and result[0] and result[1]`
applied to a fetch result. -/
def truthyPair : Option (String × String) → Option (String × String)
  | some (a, b) => if a ≠ "" ∧ b ≠ "" then some (a, b) else none
  | none => none

/-- The per-offer update of `enrich_offers_with_dates`: the HTTP fast path
(oracle `http`, indexed by the offer's global position), then the Playwright
fallback (oracle `pw`); on success the `dates` field becomes
`"first - last"`. -/
def enrichOne (http pw : ℕ → Option (String × String)) (i : ℕ) (o : BOffer) : BOffer :=
  match truthyPair (http i) with
  | some (a, b) => { o with dates := a ++ " - " ++ b }
  | none =>
      match truthyPair (pw i) with
      | some (a, b) => { o with dates := a ++ " - " ++ b }
      | none => o

/-- Apply `f` to each element together with its index, starting at `i`. -/
def mapIdxFrom {α : Type} (f : ℕ → α → α) (i : ℕ) : List α → List α
  | [] => []
  | a :: rest => f i a :: mapIdxFrom f (i + 1) rest

/-- The batch loop `for i in range(0, total, batch_size)` of
`enrich_offers_with_dates` (`hb`: the step of Python's `range` must be
positive or `range` raises). -/
def enrichGo (http pw : ℕ → Option (String × String)) (b : ℕ) (hb : 0 < b) (i : ℕ)
    (rest : List BOffer) : List BOffer :=
  match rest with
  | [] => []
  | o :: tail =>
      mapIdxFrom (enrichOne http pw) i ((o :: tail).take b) ++
        enrichGo http pw b hb (i + b) ((o :: tail).drop b)
termination_by rest.length
decreasing_by
  simp only [List.length_drop, List.length_cons]
  omega

/-- `BohemiaScraper.enrich_offers_with_dates`: processes the offers in batches
and returns the same list object; on an empty input the final progress report
divides by `total = 0` and the call raises `ZeroDivisionError` instead of
returning (modelled by `none`). -/
def enrich_offers_with_dates (http pw : ℕ → Option (String × String)) (b : ℕ)
    (hb : 0 < b) (offers : List BOffer) : Option (List BOffer) :=
  if offers.length = 0 then none
  else some (enrichGo http pw b hb 0 offers)

/-! ### `AventuraScraper.discover_listing_pages` (`aventura_scraper.py`) -/

/-- What the crawl observes about a fetched page: the count computed by
`_count_offer_links` and the normalized-and-prefix-filtered candidate links
that the enqueue loop considers.  The page graph is an oracle parameter. -/
structure CrawlPage where
  offerCount : ℕ
  links : List String

/-- `OFFERS_URL = BASE_URL = "https://aventura.bg"`. -/
def aventuraStart : String := "https://aventura.bg"

/-- The enqueue loop of `discover_listing_pages`: append each candidate link
that is neither visited nor queued, while `len(visited) + len(queue) < 300`. -/
def enqueueLinks (visited : Finset String) (queue : List String) (links : List String) :
    List String :=
  links.foldl
    (fun q norm =>
      if norm ∉ visited ∧ norm ∉ q ∧ visited.card + q.length < 300 then q ++ [norm] else q)
    queue

theorem enqueueLinks_le {visited : Finset String} {queue : List String}
    (links : List String) (h : visited.card + queue.length ≤ 300) :
    visited.card + (enqueueLinks visited queue links).length ≤ 300 := by
  induction links generalizing queue with
  | nil => exact h
  | cons l ls ih =>
      simp only [enqueueLinks, List.foldl_cons]
      by_cases hc : l ∉ visited ∧ l ∉ queue ∧ visited.card + queue.length < 300
      · rw [if_pos hc]
        exact ih (by simp; omega)
      · rw [if_neg hc]
        exact ih h

set_option maxRecDepth 4000 in
/-- The `while queue and len(listings) < max_pages` loop of
`discover_listing_pages`.  Returns the collected listing pages, the sequence
of URLs passed to `fetch_page` (the processed URLs, in order), and the value
of `len(visited) + len(queue)` at the start of each iteration.  The invariant
`h` bounds that size by 300 and also drives termination. -/
def crawlLoop (fetch : String → Option CrawlPage) (isDetail : String → Bool)
    (maxPages : ℕ) (visited : Finset String) (queue : List String)
    (listings : List String) (h : visited.card + queue.length ≤ 300) :
    List String × List String × List ℕ :=
  match queue with
  | [] => (listings, [], [])
  | url :: rest =>
      if maxPages ≤ listings.length then (listings, [], [])
      else
        let size := visited.card + (url :: rest).length
        if hv : url ∈ visited then
          let r := crawlLoop fetch isDetail maxPages visited rest listings
            (by simp at h ⊢; omega)
          (r.1, r.2.1, size :: r.2.2)
        else
          have hcard : (insert url visited).card = visited.card + 1 :=
            Finset.card_insert_of_not_mem hv
          have h1 : (insert url visited).card + rest.length ≤ 300 := by
            simp only [hcard]; simp at h; omega
          match fetch url with
          | none =>
              let r := crawlLoop fetch isDetail maxPages (insert url visited) rest listings h1
              (r.1, url :: r.2.1, size :: r.2.2)
          | some page =>
              let listings' :=
                if 5 ≤ page.offerCount ∧ ¬ isDetail url then listings ++ [url] else listings
              let r := crawlLoop fetch isDetail maxPages (insert url visited)
                (enqueueLinks (insert url visited) rest page.links) listings'
                (enqueueLinks_le page.links h1)
              (r.1, url :: r.2.1, size :: r.2.2)
termination_by (301 - visited.card) * 301 + queue.length
decreasing_by
  · simp only [List.length_cons]; omega
  · have hq : visited.card + (url :: rest).length ≤ 300 := h
    simp only [List.length_cons] at hq ⊢
    rw [hcard]
    omega
  · have hq : visited.card + (url :: rest).length ≤ 300 := h
    have h2 := enqueueLinks_le page.links h1
    simp only [List.length_cons] at hq ⊢
    rw [hcard] at h2 ⊢
    omega

/-- The order-preserving deduplication at the end of `discover_listing_pages`. -/
def dedupStringsGo (seen : List String) : List String → List String
  | [] => []
  | u :: rest =>
      if u ∈ seen then dedupStringsGo seen rest
      else u :: dedupStringsGo (u :: seen) rest

/-- `AventuraScraper.discover_listing_pages`: run the crawl from the homepage,
prepend the homepage if it was not collected, deduplicate preserving order and
truncate to `max_pages`.  Also returns the processed-URL trace and the
per-iteration `len(visited) + len(queue)` sizes of the loop. -/
def discover_listing_pages (fetch : String → Option CrawlPage)
    (isDetail : String → Bool) (maxPages : ℕ) :
    List String × List String × List ℕ :=
  let r := crawlLoop fetch isDetail maxPages ∅ [aventuraStart] [] (by simp)
  let listings2 := if aventuraStart ∈ r.1 then r.1 else aventuraStart :: r.1
  ((dedupStringsGo [] listings2).take maxPages, r.2.1, r.2.2)

/-! ### Calendar model (Python `datetime.date` / `timedelta`) -/

/-- Gregorian leap year, as implemented by `datetime`. -/
def isLeap (y : ℕ) : Bool := (y % 4 = 0 && y % 100 ≠ 0) || y % 400 = 0

theorem isLeap_iff (y : ℕ) :
    isLeap y = true ↔ ((y % 4 = 0 ∧ y % 100 ≠ 0) ∨ y % 400 = 0) := by
  unfold isLeap
  simp [Bool.or_eq_true, Bool.and_eq_true, decide_eq_true_eq]

/-- Number of days of a month, given whether the year is leap. -/
def daysInMonthAux (leap : Bool) (m : ℕ) : ℕ :=
  if m = 1 then 31 else if m = 2 then (if leap then 29 else 28)
  else if m = 3 then 31 else if m = 4 then 30 else if m = 5 then 31
  else if m = 6 then 30 else if m = 7 then 31 else if m = 8 then 31
  else if m = 9 then 30 else if m = 10 then 31 else if m = 11 then 30
  else if m = 12 then 31 else 0

/-- Number of days of month `m` of year `y`. -/
def daysInMonth (y m : ℕ) : ℕ := daysInMonthAux (isLeap y) m

/-- A calendar date (as produced by `datetime.strptime(s, '%d.%m.%Y')`). -/
structure Date where
  day : ℕ
  month : ℕ
  year : ℕ
deriving DecidableEq

/-- Validity of a date, as checked by the `datetime` constructor. -/
def validDate (d : Date) : Prop :=
  1 ≤ d.year ∧ 1 ≤ d.month ∧ d.month ≤ 12 ∧ 1 ≤ d.day ∧ d.day ≤ daysInMonth d.year d.month

instance : DecidablePred validDate := fun d => by unfold validDate; infer_instance

/-- Days contributed by the years before year `y` (proleptic Gregorian). -/
def daysBeforeYear (y : ℕ) : ℕ :=
  365 * (y - 1) + (y - 1) / 4 - (y - 1) / 100 + (y - 1) / 400

/-- Days contributed by the months before month `m`, given leapness. -/
def daysBeforeMonthAux (leap : Bool) (m : ℕ) : ℕ :=
  let lp : ℕ := if leap then 1 else 0
  if m = 1 then 0 else if m = 2 then 31
  else if m = 3 then 59 + lp else if m = 4 then 90 + lp
  else if m = 5 then 120 + lp else if m = 6 then 151 + lp
  else if m = 7 then 181 + lp else if m = 8 then 212 + lp
  else if m = 9 then 243 + lp else if m = 10 then 273 + lp
  else if m = 11 then 304 + lp else if m = 12 then 334 + lp
  else 0

/-- Days contributed by the months of year `y` before month `m`. -/
def daysBeforeMonth (y m : ℕ) : ℕ := daysBeforeMonthAux (isLeap y) m

/-- Rata-die ordinal of a date (`datetime.date.toordinal`); subtraction of two
dates in days is the difference of their ordinals. -/
def toOrdinal (d : Date) : ℕ :=
  daysBeforeYear d.year + daysBeforeMonth d.year d.month + d.day

/-- The successor day of a date. -/
def nextDay (d : Date) : Date :=
  if d.day < daysInMonth d.year d.month then ⟨d.day + 1, d.month, d.year⟩
  else if d.month < 12 then ⟨1, d.month + 1, d.year⟩
  else ⟨1, 1, d.year + 1⟩

/-- `date + timedelta(days=n)`. -/
def addDays (d : Date) : ℕ → Date
  | 0 => d
  | n + 1 => nextDay (addDays d n)

theorem one_le_daysInMonthAux (leap : Bool) (m : ℕ) (h1 : 1 ≤ m) (h2 : m ≤ 12) :
    1 ≤ daysInMonthAux leap m := by
  interval_cases m <;> cases leap <;> decide

theorem daysBeforeMonthAux_succ (leap : Bool) (m : ℕ) (h1 : 1 ≤ m) (h2 : m ≤ 11) :
    daysBeforeMonthAux leap (m + 1) = daysBeforeMonthAux leap m + daysInMonthAux leap m := by
  interval_cases m <;> cases leap <;> decide

theorem nextDay_valid {d : Date} (h : validDate d) : validDate (nextDay d) := by
  obtain ⟨hy, hm1, hm2, hd1, hd2⟩ := h
  unfold nextDay
  by_cases hlt : d.day < daysInMonth d.year d.month
  · rw [if_pos hlt]
    exact ⟨hy, hm1, hm2, by show 1 ≤ d.day + 1; omega,
      by show d.day + 1 ≤ daysInMonth d.year d.month; omega⟩
  · rw [if_neg hlt]
    by_cases hm : d.month < 12
    · rw [if_pos hm]
      exact ⟨hy, by show 1 ≤ d.month + 1; omega, by show d.month + 1 ≤ 12; omega,
        le_refl 1,
        one_le_daysInMonthAux (isLeap d.year) (d.month + 1) (by omega) (by omega)⟩
    · rw [if_neg hm]
      exact ⟨by show 1 ≤ d.year + 1; omega, le_refl 1, by show (1 : ℕ) ≤ 12; omega,
        le_refl 1, one_le_daysInMonthAux (isLeap (d.year + 1)) 1 (le_refl 1) (by omega)⟩

set_option maxHeartbeats 1000000 in
theorem daysBeforeYear_succ (y : ℕ) (hy : 1 ≤ y) :
    daysBeforeYear (y + 1) = daysBeforeYear y + 365 + (if isLeap y then 1 else 0) := by
  unfold daysBeforeYear
  by_cases hL : isLeap y = true
  · rw [if_pos hL]
    rw [isLeap_iff] at hL
    omega
  · rw [if_neg hL]
    rw [isLeap_iff] at hL
    omega

theorem toOrdinal_nextDay {d : Date} (h : validDate d) :
    toOrdinal (nextDay d) = toOrdinal d + 1 := by
  obtain ⟨hy, hm1, hm2, hd1, hd2⟩ := h
  unfold nextDay
  by_cases hlt : d.day < daysInMonth d.year d.month
  · rw [if_pos hlt]
    show daysBeforeYear d.year + daysBeforeMonth d.year d.month + (d.day + 1) =
      daysBeforeYear d.year + daysBeforeMonth d.year d.month + d.day + 1
    omega
  · rw [if_neg hlt]
    have hde : d.day = daysInMonth d.year d.month := by omega
    by_cases hm : d.month < 12
    · rw [if_pos hm]
      show daysBeforeYear d.year + daysBeforeMonth d.year (d.month + 1) + 1 =
        daysBeforeYear d.year + daysBeforeMonth d.year d.month + d.day + 1
      have hb := daysBeforeMonthAux_succ (isLeap d.year) d.month hm1 (by omega)
      unfold daysBeforeMonth daysInMonth at *
      omega
    · rw [if_neg hm]
      have hm12 : d.month = 12 := by omega
      have hys := daysBeforeYear_succ d.year hy
      show daysBeforeYear (d.year + 1) + daysBeforeMonth (d.year + 1) 1 + 1 =
        daysBeforeYear d.year + daysBeforeMonth d.year d.month + d.day + 1
      have h31 : daysInMonth d.year 12 = 31 := rfl
      have hb1 : daysBeforeMonth (d.year + 1) 1 = 0 := rfl
      have hb12 : daysBeforeMonth d.year 12 = 334 + (if isLeap d.year then 1 else 0) := by
        unfold daysBeforeMonth daysBeforeMonthAux
        norm_num
      rw [hm12] at hde ⊢
      rw [h31] at hde
      rw [hb1, hb12, hys]
      by_cases hL : isLeap d.year = true
      · rw [if_pos hL] at *
        omega
      · rw [if_neg hL] at *
        omega

theorem addDays_valid {d : Date} (h : validDate d) (n : ℕ) : validDate (addDays d n) := by
  induction n with
  | zero => exact h
  | succ n ih => exact nextDay_valid ih

theorem toOrdinal_addDays {d : Date} (h : validDate d) (n : ℕ) :
    toOrdinal (addDays d n) = toOrdinal d + n := by
  induction n with
  | zero => rfl
  | succ n ih =>
      have hnd := toOrdinal_nextDay (addDays_valid h n)
      simp only [addDays, hnd, ih]
      omega

/-! ### `fix_date_inconsistencies` from `fix_final_issues.py` -/

/-- Parse one or two digits with value in `lo..hi`, as the CPython `strptime`
directives `%d` / `%m` do; returns the value and the rest. -/
def parseTwoDigit (lo hi : ℕ) (l : List Char) : Option (ℕ × List Char) :=
  let ds := l.takeWhile Char.isDigit
  if ds.length = 1 ∨ ds.length = 2 then
    let n := natOfDigits ds
    if lo ≤ n ∧ n ≤ hi then some (n, l.dropWhile Char.isDigit) else none
  else none

/-- `datetime.strptime(s, '%d.%m.%Y')`: day (1-2 digits, 1..31), dot, month
(1-2 digits, 1..12), dot, year (exactly 4 digits), end of input; then the
`datetime` constructor validates the day against the month length and the
year against `MINYEAR = 1`. -/
def parseDMY (s : String) : Option Date :=
  match parseTwoDigit 1 31 s.toList with
  | none => none
  | some (d, r1) =>
      match r1 with
      | '.' :: r2 =>
          match parseTwoDigit 1 12 r2 with
          | none => none
          | some (m, r3) =>
              match r3 with
              | '.' :: r4 =>
                  let ys := r4.takeWhile Char.isDigit
                  if ys.length = 4 ∧ r4.dropWhile Char.isDigit = [] then
                    let y := natOfDigits ys
                    if 1 ≤ y ∧ d ≤ daysInMonth y m then some ⟨d, m, y⟩ else none
                  else none
              | _ => none
      | _ => none

/-- `date.strftime('%d.%m.%Y')`: zero-padded day and month, 4-digit year. -/
def pad2 (n : ℕ) : String := if n < 10 then "0" ++ toString n else toString n

/-- Zero-pad a year to 4 digits (`%Y` in `strftime`). -/
def pad4 (n : ℕ) : String :=
  if n < 10 then "000" ++ toString n
  else if n < 100 then "00" ++ toString n
  else if n < 1000 then "0" ++ toString n
  else toString n

/-- `date.strftime('%d.%m.%Y')`. -/
def formatDMY (d : Date) : String :=
  pad2 d.day ++ "." ++ pad2 d.month ++ "." ++ pad4 d.year

/-- Python dict assignment `offer[k] = v` on an association list. -/
def dictSet : RawOffer → String → String → RawOffer
  | [], k, v => [(k, v)]
  | p :: rest, k, v => if p.1 = k then (k, v) :: rest else p :: dictSet rest k v

/-- The duration search `re.search(r'(\d+)\s*(?:дни|нощувки)', title, re.IGNORECASE)`
of `fix_date_inconsistencies`, run on the lower-cased title. -/
def findTitleDur (title : String) : Option ℕ :=
  findNatTok [tokDays, ['н', 'о', 'щ', 'у', 'в', 'к', 'и']] (pyLower title).toList

/-- The per-offer body of the loop of `fix_date_inconsistencies`. -/
def fixDateOne (o : RawOffer) : RawOffer :=
  let dates := rawGet o "dates"
  let title := rawGet o "title"
  if dates = "" ∨ ¬ pyIn "-" dates then o
  else
    match pySplit " - " dates with
    | [p1, p2] =>
        match parseDMY (pyStrip p1), parseDMY (pyStrip p2) with
        | some st, some en =>
            let actual : ℤ := (toOrdinal en : ℤ) - (toOrdinal st : ℤ) + 1
            match findTitleDur title with
            | some n =>
                if 1 < (actual - (n : ℤ)).natAbs then
                  if 1 < n then
                    dictSet o "dates"
                      (formatDMY st ++ " - " ++ formatDMY (addDays st (n - 1)))
                  else o
                else o
            | none => o
        | _, _ => o
    | _ => o

/-- `fix_date_inconsistencies` from `fix_final_issues.py` (the mutation of the
offers list, element by element). -/
def fix_date_inconsistencies (offers : List RawOffer) : List RawOffer :=
  offers.map fixDateOne

/-- The patch condition as stated by the claim: the `dates` field splits as a
two-sided `DD.MM.YYYY - DD.MM.YYYY` range, the title states a duration `N > 1`
(first `(\d+)\s*(?:дни|нощувки)` match), and `N` differs from the inclusive day
count of the range by more than one.  Returns `(start, N)` for such offers. -/
def patchInfo (o : RawOffer) : Option (Date × ℕ) :=
  match pySplit " - " (rawGet o "dates") with
  | [p1, p2] =>
      match parseDMY (pyStrip p1), parseDMY (pyStrip p2) with
      | some st, some en =>
          match findTitleDur (rawGet o "title") with
          | some n =>
              if 1 < n ∧ 1 < (((toOrdinal en : ℤ) - (toOrdinal st : ℤ) + 1) - (n : ℤ)).natAbs
              then some (st, n)
              else none
          | none => none
      | _, _ => none
  | _ => none

/-! ### Soundness and completeness of the scanner model -/

/-- The head of `l` (if any) satisfies `p`, vacuously for `[]`. -/
def headIs (p : Char → Prop) : List Char → Prop
  | [] => True
  | c :: _ => p c

theorem takeWhile_app (p : Char → Bool) (l1 l2 : List Char)
    (h1 : ∀ c ∈ l1, p c = true) (h2 : headIs (fun c => p c = false) l2) :
    (l1 ++ l2).takeWhile p = l1 ∧ (l1 ++ l2).dropWhile p = l2 := by
  induction l1 with
  | nil =>
      simp only [List.nil_append]
      cases l2 with
      | nil => simp
      | cons c cs =>
          simp only [headIs] at h2
          simp [List.takeWhile, List.dropWhile, h2]
  | cons a l1 ih =>
      have ha : p a = true := h1 a (List.mem_cons_self a l1)
      have := ih (fun c hc => h1 c (List.mem_cons_of_mem a hc))
      simp [List.takeWhile, List.dropWhile, ha, this.1, this.2]

theorem mem_takeWhile_p (p : Char → Bool) (l : List Char) :
    ∀ c ∈ l.takeWhile p, p c = true := by
  intro c hc
  exact List.mem_takeWhile_imp hc

/-- A nonempty list starting with `'.'` is `'.'` followed by its tail. -/
theorem eq_dot_cons_tail {r : List Char} (h : r ≠ [] ∧ r.headI = '.') :
    r = '.' :: r.tail := by
  obtain ⟨hne, hh⟩ := h
  cases r with
  | nil => exact absurd rfl hne
  | cons c cs => simp only [List.headI] at hh; simp [hh]

/-- Soundness of `matchNum`: a successful match decomposes its input. -/
theorem matchNum_sound {l ip fp : List Char} {hd : Bool} {rest : List Char}
    (h : matchNum l = some (ip, fp, hd, rest)) :
    l = ip ++ (if hd then '.' :: fp else []) ++ rest ∧ ip ≠ [] ∧
      (∀ c ∈ ip, c.isDigit = true) ∧ (∀ c ∈ fp, c.isDigit = true) ∧
      (hd = false → fp = []) := by
  unfold matchNum at h
  by_cases he : (l.takeWhile Char.isDigit).isEmpty
  · rw [if_pos he] at h; exact absurd h (by simp)
  · rw [if_neg he] at h
    have hsplit := List.takeWhile_append_dropWhile Char.isDigit l
    by_cases hdot : l.dropWhile Char.isDigit ≠ [] ∧ (l.dropWhile Char.isDigit).headI = '.'
    · rw [if_pos hdot] at h
      simp only [Option.some.injEq, Prod.mk.injEq] at h
      obtain ⟨h1, h2, h3, h4⟩ := h
      subst h1 h2 h3 h4
      refine ⟨?_, by simpa [List.isEmpty_iff] using he, mem_takeWhile_p _ _,
        mem_takeWhile_p _ _, by simp⟩
      rw [if_pos rfl]
      conv_lhs => rw [← hsplit]
      rw [eq_dot_cons_tail hdot]
      have := List.takeWhile_append_dropWhile Char.isDigit (l.dropWhile Char.isDigit).tail
      simp [this]
    · rw [if_neg hdot] at h
      simp only [Option.some.injEq, Prod.mk.injEq] at h
      obtain ⟨h1, h2, h3, h4⟩ := h
      subst h1 h2 h3 h4
      refine ⟨?_, by simpa [List.isEmpty_iff] using he, mem_takeWhile_p _ _, by simp,
        fun _ => rfl⟩
      rw [if_neg Bool.false_ne_true]
      conv_lhs => rw [← hsplit]
      simp

/-- Soundness of `matchNumUsd`. -/
theorem matchNumUsd_sound {l ip fp : List Char} {hd : Bool} {rest : List Char}
    (h : matchNumUsd l = some (ip, fp, hd, rest)) :
    l = ip ++ (if hd then '.' :: fp else []) ++ rest ∧ ip ≠ [] ∧
      (∀ c ∈ ip, c.isDigit = true) ∧ (∀ c ∈ fp, c.isDigit = true) ∧
      (hd = false → fp = []) ∧ (hd = true → fp ≠ []) := by
  unfold matchNumUsd at h
  by_cases he : (l.takeWhile Char.isDigit).isEmpty
  · rw [if_pos he] at h; exact absurd h (by simp)
  · rw [if_neg he] at h
    have hsplit := List.takeWhile_append_dropWhile Char.isDigit l
    by_cases hdot : l.dropWhile Char.isDigit ≠ [] ∧ (l.dropWhile Char.isDigit).headI = '.' ∧
        ¬((l.dropWhile Char.isDigit).tail.takeWhile Char.isDigit).isEmpty
    · rw [if_pos hdot] at h
      simp only [Option.some.injEq, Prod.mk.injEq] at h
      obtain ⟨h1, h2, h3, h4⟩ := h
      subst h1 h2 h3 h4
      refine ⟨?_, by simpa [List.isEmpty_iff] using he, mem_takeWhile_p _ _,
        mem_takeWhile_p _ _, by simp, fun _ => by simpa [List.isEmpty_iff] using hdot.2.2⟩
      rw [if_pos rfl]
      conv_lhs => rw [← hsplit]
      rw [eq_dot_cons_tail ⟨hdot.1, hdot.2.1⟩]
      have := List.takeWhile_append_dropWhile Char.isDigit (l.dropWhile Char.isDigit).tail
      simp [this]
    · rw [if_neg hdot] at h
      simp only [Option.some.injEq, Prod.mk.injEq] at h
      obtain ⟨h1, h2, h3, h4⟩ := h
      subst h1 h2 h3 h4
      refine ⟨?_, by simpa [List.isEmpty_iff] using he, mem_takeWhile_p _ _, by simp,
        fun _ => rfl, by simp⟩
      rw [if_neg Bool.false_ne_true]
      conv_lhs => rw [← hsplit]
      simp

theorem firstMatch_sound {α : Type} {f : List Char → Option α} :
    ∀ {l : List Char} {a : α}, firstMatch f l = some a →
      ∃ pre suf, l = pre ++ suf ∧ f suf = some a := by
  intro l
  induction l with
  | nil => intro a h; simp [firstMatch] at h
  | cons c cs ih =>
      intro a h
      unfold firstMatch at h
      cases hf : f (c :: cs) with
      | some b =>
          rw [hf] at h
          exact ⟨[], c :: cs, by simp, by rw [hf, ← h]⟩
      | none =>
          rw [hf] at h
          obtain ⟨pre, suf, hl, hs⟩ := ih h
          exact ⟨c :: pre, suf, by simp [hl], hs⟩

theorem headIs_cons {p : Char → Prop} {c : Char} {l : List Char}
    (h : headIs p (c :: l)) : p c := h

theorem firstMatch_skip {α : Type} {f : List Char → Option α}
    (hf : ∀ c cs, c.isDigit = false → f (c :: cs) = none) :
    ∀ {pre : List Char}, (∀ c ∈ pre, c.isDigit = false) →
      ∀ suf, firstMatch f (pre ++ suf) = firstMatch f suf := by
  intro pre
  induction pre with
  | nil => intro _ suf; simp
  | cons c cs ih =>
      intro hpre suf
      have hc : c.isDigit = false := hpre c (List.mem_cons_self c cs)
      have hstep : firstMatch f ((c :: cs) ++ suf) = firstMatch f (cs ++ suf) := by
        rw [List.cons_append]
        conv_lhs => rw [firstMatch]
        rw [hf c (cs ++ suf) hc]
      rw [hstep]
      exact ih (fun x hx => hpre x (List.mem_cons_of_mem c hx)) suf

theorem firstMatch_isSome {α : Type} {f : List Char → Option α} (hf0 : f [] = none) :
    ∀ (pre : List Char) {suf : List Char} {a : α}, f suf = some a →
      firstMatch f (pre ++ suf) ≠ none := by
  intro pre
  induction pre with
  | nil =>
      intro suf a h
      cases suf with
      | nil => rw [hf0] at h; exact absurd h (by simp)
      | cons c cs =>
          simp only [List.nil_append]
          rw [firstMatch, h]
          simp
  | cons c cs ih =>
      intro suf a h
      rw [List.cons_append]
      rw [firstMatch]
      cases hfc : f (c :: (cs ++ suf)) with
      | some b => simp
      | none => exact ih h

/-- An occurrence, somewhere in `l`, of the pattern `NUM \s* tok` with `tok`
one of the alternatives `toks`: the declarative reading of the price regexes. -/
def TokOccParts (toks : List (List Char)) (l pre ip fp sp tok rest : List Char)
    (hd : Bool) : Prop :=
  l = pre ++ ip ++ (if hd then '.' :: fp else []) ++ sp ++ tok ++ rest ∧
  ip ≠ [] ∧ (∀ c ∈ ip, c.isDigit = true) ∧ (∀ c ∈ fp, c.isDigit = true) ∧
  (hd = false → fp = []) ∧ (∀ c ∈ sp, isPySpace c = true) ∧ tok ∈ toks

/-- `l` contains an occurrence of `NUM \s* tok` for some `tok ∈ toks`. -/
def hasTokOcc (toks : List (List Char)) (l : List Char) : Prop :=
  ∃ pre ip fp hd sp tok rest, TokOccParts toks l pre ip fp sp tok rest hd

/-- `l` contains an occurrence of the `$`-price pattern (whose fractional
part, when present, is nonempty). -/
def hasUsdOcc (l : List Char) : Prop :=
  ∃ pre ip fp hd sp tok rest,
    TokOccParts [['$']] l pre ip fp sp tok rest hd ∧ (hd = true → fp ≠ [])

/-- A usable token: nonempty, not starting with a digit, a dot or whitespace. -/
def tokHeadOk : List Char → Prop
  | [] => False
  | c :: _ => c.isDigit = false ∧ c ≠ '.' ∧ isPySpace c = false

theorem isPySpace_not_digit {c : Char} (h : isPySpace c = true) :
    c.isDigit = false ∧ c ≠ '.' := by
  unfold isPySpace at h
  simp only [Bool.or_eq_true, decide_eq_true_eq] at h
  rcases h with (((((h | h) | h) | h) | h) | h) <;> subst h <;> exact ⟨rfl, by decide⟩

theorem matchNum_none_of_nondigit {c : Char} (cs : List Char) (hc : c.isDigit = false) :
    matchNum (c :: cs) = none := by
  unfold matchNum
  simp [List.takeWhile, hc]

theorem matchNumUsd_none_of_nondigit {c : Char} (cs : List Char) (hc : c.isDigit = false) :
    matchNumUsd (c :: cs) = none := by
  unfold matchNumUsd
  simp [List.takeWhile, hc]

theorem matchNum_nil : matchNum [] = none := rfl

theorem matchNumUsd_nil : matchNumUsd [] = none := rfl

theorem headIs_weaken {r : List Char}
    (hr : headIs (fun c => c.isDigit = false ∧ c ≠ '.') r) :
    headIs (fun c => Char.isDigit c = false) r := by
  cases r with
  | nil => trivial
  | cons c cs => exact (headIs_cons hr).1

theorem not_dot_cond {r : List Char}
    (hr : headIs (fun c => c.isDigit = false ∧ c ≠ '.') r) :
    ¬(r ≠ [] ∧ r.headI = '.') := by
  cases r with
  | nil => simp
  | cons c cs =>
      simp only [List.headI, ne_eq, not_and]
      intro _
      exact (headIs_cons hr).2

theorem matchNum_complete {ip fp r : List Char} {hd : Bool} (hip : ip ≠ [])
    (hipd : ∀ c ∈ ip, c.isDigit = true) (hfpd : ∀ c ∈ fp, c.isDigit = true)
    (hhd : hd = false → fp = [])
    (hr : headIs (fun c => c.isDigit = false ∧ c ≠ '.') r) :
    matchNum (ip ++ (if hd then '.' :: fp else []) ++ r) = some (ip, fp, hd, r) := by
  cases hd with
  | true =>
      rw [if_pos rfl]
      have hdot : headIs (fun c => Char.isDigit c = false) ('.' :: (fp ++ r)) := by
        show Char.isDigit '.' = false
        decide
      have h1 := takeWhile_app Char.isDigit ip ('.' :: (fp ++ r)) hipd hdot
      have h2 := takeWhile_app Char.isDigit fp r hfpd (headIs_weaken hr)
      have heq : ip ++ '.' :: fp ++ r = ip ++ ('.' :: (fp ++ r)) := by simp
      unfold matchNum
      rw [heq, h1.1, h1.2]
      rw [if_neg (by simpa [List.isEmpty_iff] using hip)]
      rw [if_pos (by exact ⟨List.cons_ne_nil _ _, rfl⟩)]
      simp only [List.tail_cons]
      rw [h2.1, h2.2]
  | false =>
      rw [if_neg Bool.false_ne_true, hhd rfl]
      have h1 := takeWhile_app Char.isDigit ip r hipd (headIs_weaken hr)
      unfold matchNum
      simp only [List.append_nil]
      rw [h1.1, h1.2]
      rw [if_neg (by simpa [List.isEmpty_iff] using hip)]
      rw [if_neg (not_dot_cond hr)]

theorem matchNumUsd_complete {ip fp r : List Char} {hd : Bool} (hip : ip ≠ [])
    (hipd : ∀ c ∈ ip, c.isDigit = true) (hfpd : ∀ c ∈ fp, c.isDigit = true)
    (hhd : hd = false → fp = []) (hfne : hd = true → fp ≠ [])
    (hr : headIs (fun c => c.isDigit = false ∧ c ≠ '.') r) :
    matchNumUsd (ip ++ (if hd then '.' :: fp else []) ++ r) = some (ip, fp, hd, r) := by
  cases hd with
  | true =>
      rw [if_pos rfl]
      have hdot : headIs (fun c => Char.isDigit c = false) ('.' :: (fp ++ r)) := by
        show Char.isDigit '.' = false
        decide
      have h1 := takeWhile_app Char.isDigit ip ('.' :: (fp ++ r)) hipd hdot
      have h2 := takeWhile_app Char.isDigit fp r hfpd (headIs_weaken hr)
      have heq : ip ++ '.' :: fp ++ r = ip ++ ('.' :: (fp ++ r)) := by simp
      unfold matchNumUsd
      rw [heq, h1.1, h1.2]
      rw [if_neg (by simpa [List.isEmpty_iff] using hip)]
      rw [if_pos (by
        refine ⟨List.cons_ne_nil _ _, rfl, ?_⟩
        simp only [List.tail_cons]
        rw [h2.1]
        simpa [List.isEmpty_iff] using hfne rfl)]
      simp only [List.tail_cons]
      rw [h2.1, h2.2]
  | false =>
      rw [if_neg Bool.false_ne_true, hhd rfl]
      have h1 := takeWhile_app Char.isDigit ip r hipd (headIs_weaken hr)
      unfold matchNumUsd
      simp only [List.append_nil]
      rw [h1.1, h1.2]
      rw [if_neg (by simpa [List.isEmpty_iff] using hip)]
      rw [if_neg (by
        intro hcond
        exact absurd hcond.2.1 (by
          cases r with
          | nil => exact absurd rfl hcond.1
          | cons c cs =>
              simp only [List.headI]
              exact (headIs_cons hr).2))]

theorem char_le_toNat {a b : Char} : a ≤ b ↔ a.toNat ≤ b.toNat := Iff.rfl

theorem char_isDigit_iff {c : Char} : c.isDigit = true ↔ 48 ≤ c.toNat ∧ c.toNat ≤ 57 := by
  simp only [Char.isDigit, ge_iff_le, Bool.and_eq_true, decide_eq_true_eq]
  exact Iff.rfl

theorem pyLowerChar_digit {c : Char} (h : c.isDigit = true) : pyLowerChar c = c := by
  rw [char_isDigit_iff] at h
  have hAZ : ¬('A' ≤ c ∧ 'Z'.le c = false ∧ True) ∨ True := Or.inr trivial
  unfold pyLowerChar
  rw [if_neg ?hc1, if_neg ?hc2, if_neg ?hc3]
  case hc1 =>
    intro ⟨h1, h2⟩
    rw [char_le_toNat] at h1 h2
    have e1 : ('A' : Char).toNat = 65 := rfl
    have e2 : ('Z' : Char).toNat = 90 := rfl
    omega
  case hc2 =>
    intro ⟨h1, h2⟩
    rw [char_le_toNat] at h1 h2
    have e1 : ('А' : Char).toNat = 1040 := rfl
    have e2 : ('Я' : Char).toNat = 1071 := rfl
    omega
  case hc3 =>
    intro he
    rw [he] at h
    have e1 : ('Ё' : Char).toNat = 1025 := rfl
    omega

theorem pyLowerChar_space {c : Char} (h : isPySpace c = true) : pyLowerChar c = c := by
  unfold isPySpace at h
  simp only [Bool.or_eq_true, decide_eq_true_eq] at h
  rcases h with (((((h | h) | h) | h) | h) | h) <;> subst h <;> rfl

/-- A list of characters that are fixed points of `f` maps to itself. -/
theorem map_self_of_fixed {f : Char → Char} :
    ∀ {l : List Char}, (∀ c ∈ l, f c = c) → l.map f = l := by
  intro l
  induction l with
  | nil => intro _; rfl
  | cons c cs ih =>
      intro h
      simp only [List.map_cons]
      rw [h c (List.mem_cons_self c cs), ih (fun x hx => h x (List.mem_cons_of_mem c hx))]

theorem matchNumTokAt_num_sound {toks : List (List Char)} {l : List Char} {q : ℚ}
    (h : matchNumTokAt matchNum toks l = some q) :
    ∃ ip fp hd sp tok rest, TokOccParts toks l [] ip fp sp tok rest hd ∧
      q = ratOfNumParts ip fp := by
  unfold matchNumTokAt at h
  split at h
  · exact absurd h (by simp)
  · next ip fp hd rest heq =>
      obtain ⟨hdec, hip, hipd, hfpd, hhd⟩ := matchNum_sound heq
      split at h
      · next ha =>
          simp only [Option.some.injEq] at h
          obtain ⟨tok, htok, hpref⟩ := List.any_eq_true.mp ha
          obtain ⟨rest2, hr2⟩ := List.isPrefixOf_iff_prefix.mp hpref
          have hsp := List.takeWhile_append_dropWhile isPySpace rest
          refine ⟨ip, fp, hd, rest.takeWhile isPySpace, tok, rest2,
            ⟨?_, hip, hipd, hfpd, hhd, mem_takeWhile_p _ _, htok⟩, h.symm⟩
          rw [hdec]
          simp only [List.nil_append, List.append_assoc]
          have hrw : rest = rest.takeWhile isPySpace ++ (tok ++ rest2) := by
            conv_lhs => rw [← hsp]
            rw [hr2]
            rfl
          rw [← hrw]
      · exact absurd h (by simp)

theorem matchNumTokAt_usd_sound {toks : List (List Char)} {l : List Char} {q : ℚ}
    (h : matchNumTokAt matchNumUsd toks l = some q) :
    ∃ ip fp hd sp tok rest, TokOccParts toks l [] ip fp sp tok rest hd ∧
      (hd = true → fp ≠ []) ∧ q = ratOfNumParts ip fp := by
  unfold matchNumTokAt at h
  split at h
  · exact absurd h (by simp)
  · next ip fp hd rest heq =>
      obtain ⟨hdec, hip, hipd, hfpd, hhd, hfne⟩ := matchNumUsd_sound heq
      split at h
      · next ha =>
          simp only [Option.some.injEq] at h
          obtain ⟨tok, htok, hpref⟩ := List.any_eq_true.mp ha
          obtain ⟨rest2, hr2⟩ := List.isPrefixOf_iff_prefix.mp hpref
          have hsp := List.takeWhile_append_dropWhile isPySpace rest
          refine ⟨ip, fp, hd, rest.takeWhile isPySpace, tok, rest2,
            ⟨?_, hip, hipd, hfpd, hhd, mem_takeWhile_p _ _, htok⟩, hfne, h.symm⟩
          rw [hdec]
          simp only [List.nil_append, List.append_assoc]
          have hrw : rest = rest.takeWhile isPySpace ++ (tok ++ rest2) := by
            conv_lhs => rw [← hsp]
            rw [hr2]
            rfl
          rw [← hrw]
      · exact absurd h (by simp)

theorem headIs_sp_tok {sp tok rest : List Char} (hsp : ∀ c ∈ sp, isPySpace c = true)
    (hth : tokHeadOk tok) :
    headIs (fun c => c.isDigit = false ∧ c ≠ '.') (sp ++ tok ++ rest) := by
  cases sp with
  | cons s ss =>
      exact isPySpace_not_digit (hsp s (List.mem_cons_self s ss))
  | nil =>
      cases tok with
      | nil => exact absurd hth (by simp [tokHeadOk])
      | cons t ts =>
          obtain ⟨h1, h2, _⟩ := (hth : _ ∧ _ ∧ _)
          exact ⟨h1, h2⟩

theorem dropSpaces_sp_tok {sp tok rest : List Char} (hsp : ∀ c ∈ sp, isPySpace c = true)
    (hth : tokHeadOk tok) : dropSpaces (sp ++ (tok ++ rest)) = tok ++ rest := by
  unfold dropSpaces
  refine (takeWhile_app isPySpace sp (tok ++ rest) hsp ?_).2
  cases tok with
  | nil => exact absurd hth (by simp [tokHeadOk])
  | cons t ts => exact (hth : _ ∧ _ ∧ _).2.2

theorem matchNumTokAt_num_complete {toks : List (List Char)}
    {ip fp sp tok rest : List Char} {hd : Bool} (hip : ip ≠ [])
    (hipd : ∀ c ∈ ip, c.isDigit = true) (hfpd : ∀ c ∈ fp, c.isDigit = true)
    (hhd : hd = false → fp = []) (hsp : ∀ c ∈ sp, isPySpace c = true)
    (htok : tok ∈ toks) (hth : tokHeadOk tok) :
    matchNumTokAt matchNum toks
      (ip ++ (if hd then '.' :: fp else []) ++ (sp ++ (tok ++ rest))) =
      some (ratOfNumParts ip fp) := by
  have hr := @headIs_sp_tok sp tok rest hsp hth
  have hcm : matchNum ((ip ++ if hd = true then '.' :: fp else []) ++ (sp ++ tok ++ rest)) =
      some (ip, fp, hd, sp ++ tok ++ rest) :=
    matchNum_complete hip hipd hfpd hhd hr
  unfold matchNumTokAt
  rw [show sp ++ (tok ++ rest) = sp ++ tok ++ rest from (List.append_assoc sp tok rest).symm,
    hcm]
  show (if toks.any (fun t => t.isPrefixOf (dropSpaces (sp ++ tok ++ rest))) = true then
      some (ratOfNumParts ip fp) else none) = some (ratOfNumParts ip fp)
  rw [List.append_assoc, dropSpaces_sp_tok hsp hth]
  have hany : (toks.any fun t => t.isPrefixOf (tok ++ rest)) = true :=
    List.any_eq_true.mpr ⟨tok, htok,
      List.isPrefixOf_iff_prefix.mpr (List.prefix_append tok rest)⟩
  rw [if_pos hany]

theorem matchNumTokAt_num_nondigit (toks : List (List Char)) {c : Char} (cs : List Char)
    (hc : c.isDigit = false) : matchNumTokAt matchNum toks (c :: cs) = none := by
  unfold matchNumTokAt
  rw [matchNum_none_of_nondigit cs hc]

theorem matchNumTokAt_usd_nondigit (toks : List (List Char)) {c : Char} (cs : List Char)
    (hc : c.isDigit = false) : matchNumTokAt matchNumUsd toks (c :: cs) = none := by
  unfold matchNumTokAt
  rw [matchNumUsd_none_of_nondigit cs hc]

theorem matchNumTokAt_num_nil (toks : List (List Char)) :
    matchNumTokAt matchNum toks [] = none := rfl

theorem matchNumTokAt_usd_nil (toks : List (List Char)) :
    matchNumTokAt matchNumUsd toks [] = none := rfl

/-- If no `NUM \s* tok` occurrence exists in `l`, the scanner finds nothing. -/
theorem findNumTok_none_of_not_occ {toks : List (List Char)} {l : List Char}
    (h : ¬ hasTokOcc toks l) :
    firstMatch (matchNumTokAt matchNum toks) l = none := by
  cases hfm : firstMatch (matchNumTokAt matchNum toks) l with
  | none => rfl
  | some q =>
      exfalso
      obtain ⟨pre, suf, hl, hs⟩ := firstMatch_sound hfm
      obtain ⟨ip, fp, hd, sp, tok, rest, hocc, _⟩ := matchNumTokAt_num_sound hs
      refine h ⟨pre, ip, fp, hd, sp, tok, rest, ?_, hocc.2.1, hocc.2.2.1, hocc.2.2.2.1,
        hocc.2.2.2.2.1, hocc.2.2.2.2.2.1, hocc.2.2.2.2.2.2⟩
      rw [hl, hocc.1]
      simp

/-- If no `$`-occurrence exists in `l`, the `$` scanner finds nothing. -/
theorem findUsd_none_of_not_occ {l : List Char} (h : ¬ hasUsdOcc l) :
    firstMatch (matchNumTokAt matchNumUsd [['$']]) l = none := by
  cases hfm : firstMatch (matchNumTokAt matchNumUsd [['$']]) l with
  | none => rfl
  | some q =>
      exfalso
      obtain ⟨pre, suf, hl, hs⟩ := firstMatch_sound hfm
      obtain ⟨ip, fp, hd, sp, tok, rest, hocc, hfne, _⟩ := matchNumTokAt_usd_sound hs
      refine h ⟨pre, ip, fp, hd, sp, tok, rest, ⟨?_, hocc.2.1, hocc.2.2.1, hocc.2.2.2.1,
        hocc.2.2.2.2.1, hocc.2.2.2.2.2.1, hocc.2.2.2.2.2.2⟩, hfne⟩
      rw [hl, hocc.1]
      simp

/-- The scanner finds the occurrence whose prefix contains no digits, and
returns its numeric value. -/
theorem findNumTok_value {toks : List (List Char)}
    {pre ip fp sp tok rest : List Char} {hd : Bool}
    (hpre : ∀ c ∈ pre, c.isDigit = false) (hip : ip ≠ [])
    (hipd : ∀ c ∈ ip, c.isDigit = true) (hfpd : ∀ c ∈ fp, c.isDigit = true)
    (hhd : hd = false → fp = []) (hsp : ∀ c ∈ sp, isPySpace c = true)
    (htok : tok ∈ toks) (hth : tokHeadOk tok) :
    firstMatch (matchNumTokAt matchNum toks)
      (pre ++ (ip ++ (if hd then '.' :: fp else []) ++ (sp ++ (tok ++ rest)))) =
      some (ratOfNumParts ip fp) := by
  rw [firstMatch_skip (fun c cs hc => matchNumTokAt_num_nondigit toks cs hc) hpre]
  have hcm := @matchNumTokAt_num_complete toks ip fp sp tok rest hd hip hipd hfpd hhd hsp htok hth
  cases hless : ip ++ (if hd then '.' :: fp else []) ++ (sp ++ (tok ++ rest)) with
  | nil =>
      exfalso
      cases ip with
      | nil => exact hip rfl
      | cons a b => simp at hless
  | cons c cs =>
      rw [← hless]
      conv_lhs => rw [hless, firstMatch]
      rw [← hless, hcm]

theorem dropDot_decomp (r : List Char) : r = dropDot r ∨ r = '.' :: dropDot r := by
  unfold dropDot
  by_cases h : r ≠ [] ∧ r.headI = '.'
  · rw [if_pos h]
    right
    exact eq_dot_cons_tail h
  · rw [if_neg h]
    left
    rfl

theorem exists_space_split (r : List Char) :
    ∃ sp, (∀ c ∈ sp, isPySpace c = true) ∧ r = sp ++ dropSpaces r :=
  ⟨r.takeWhile isPySpace, mem_takeWhile_p _ _,
    (List.takeWhile_append_dropWhile isPySpace r).symm⟩

/-- A successful Angel Travel combined-format match exhibits a number
followed by spaces and `EUR`, hence an EUR occurrence in the lower-cased
string: the combined branch of `parse_price` is subsumed by the EUR branch. -/
theorem matchAngelCombinedAt_sound_eur {l : List Char} {q : ℚ}
    (h : matchAngelCombinedAt l = some q) :
    hasTokOcc eurToks (l.map pyLowerChar) := by
  unfold matchAngelCombinedAt at h
  split at h
  · exact absurd h (by simp)
  · next ip1 fp1 hd1 r1 heq1 =>
      split at h
      · next hlv =>
        split at h
        · next r6 heq2 =>
            split at h
            · exact absurd h (by simp)
            · next ip2 fp2 hd2 r8 heq3 =>
                split at h
                · next heur =>
                    clear h
                    obtain ⟨hdec1, _, _, _, _⟩ := matchNum_sound heq1
                    obtain ⟨rest3, hr3⟩ := List.isPrefixOf_iff_prefix.mp hlv
                    obtain ⟨sp1, hsp1c, hsp1⟩ := exists_space_split r1
                    rw [← hr3] at hsp1
                    obtain ⟨r4, hr4d, hr4⟩ :
                        ∃ r4, (rest3 = r4 ∨ rest3 = '.' :: r4) ∧ dropDot rest3 = r4 :=
                      ⟨dropDot rest3, dropDot_decomp rest3, rfl⟩
                    have hdrop2 : (dropSpaces r1).drop 2 = rest3 := by
                      rw [← hr3]
                      exact List.drop_left ['л', 'в'] rest3
                    rw [hdrop2, hr4] at heq2
                    obtain ⟨sp2, hsp2c, hsp2⟩ := exists_space_split r4
                    rw [heq2] at hsp2
                    obtain ⟨hdec3, hip2, hipd2, hfpd2, hhd2⟩ := matchNum_sound heq3
                    obtain ⟨sp3, hsp3c, hsp3⟩ := exists_space_split r6
                    rw [hdec3] at hsp3
                    obtain ⟨r9, hr9⟩ := List.isPrefixOf_iff_prefix.mp heur
                    obtain ⟨sp4, hsp4c, hsp4⟩ := exists_space_split r8
                    rw [← hr9] at hsp4
                    have hL : l = (ip1 ++ (if hd1 = true then '.' :: fp1 else []) ++ sp1 ++
                        ['л', 'в'] ++ (if rest3 = '.' :: r4 then ['.'] else []) ++ sp2 ++
                        ('/' :: sp3)) ++
                        (ip2 ++ (if hd2 = true then '.' :: fp2 else []) ++
                          (sp4 ++ (['E', 'U', 'R'] ++ r9))) := by
                      rcases hr4d with hcase | hcase
                      · have hne : ¬(rest3 = '.' :: r4) := by
                          intro hx
                          rw [hcase] at hx
                          have := congrArg List.length hx
                          simp at this
                        rw [if_neg hne, hdec1, hsp1, hcase, hsp2, hsp3, hsp4]
                        simp [List.append_assoc]
                      · rw [if_pos hcase, hdec1, hsp1, hcase, hsp2, hsp3, hsp4]
                        simp [List.append_assoc]
                    refine ⟨(ip1 ++ (if hd1 = true then '.' :: fp1 else []) ++ sp1 ++
                        ['л', 'в'] ++ (if rest3 = '.' :: r4 then ['.'] else []) ++ sp2 ++
                        ('/' :: sp3)).map pyLowerChar,
                      ip2, fp2, hd2, sp4, ['e', 'u', 'r'], r9.map pyLowerChar,
                      ?_, hip2, hipd2, hfpd2, hhd2, hsp4c, by simp [eurToks]⟩
                    rw [hL]
                    simp only [List.map_append, List.append_assoc]
                    have hip2m : ip2.map pyLowerChar = ip2 :=
                      map_self_of_fixed (fun c hc => pyLowerChar_digit (hipd2 c hc))
                    have hdotm : ((if hd2 = true then '.' :: fp2 else []) : List Char).map
                        pyLowerChar = (if hd2 = true then '.' :: fp2 else []) := by
                      cases hd2 with
                      | false => simp
                      | true =>
                          show List.map pyLowerChar ('.' :: fp2) = '.' :: fp2
                          rw [List.map_cons, show pyLowerChar '.' = '.' from rfl,
                            map_self_of_fixed (fun c hc => pyLowerChar_digit (hfpd2 c hc))]
                    have hspm : sp4.map pyLowerChar = sp4 :=
                      map_self_of_fixed (fun c hc => pyLowerChar_space (hsp4c c hc))
                    have heurm : (['E', 'U', 'R'] : List Char).map pyLowerChar =
                        ['e', 'u', 'r'] := rfl
                    rw [hip2m, hdotm, hspm, heurm]
                · exact absurd h (by simp)
        · exact absurd h (by simp)
      · exact absurd h (by simp)

/-- `findAngelCombined` on the original string cannot succeed when the
lower-cased string has no EUR occurrence. -/
theorem findAngelCombined_none_of_not_eurocc {l : List Char}
    (h : ¬ hasTokOcc eurToks (l.map pyLowerChar)) :
    findAngelCombined l = none := by
  cases hfm : findAngelCombined l with
  | none => rfl
  | some q =>
      exfalso
      obtain ⟨pre, suf, hl, hs⟩ := firstMatch_sound hfm
      obtain ⟨p2, ip, fp, hd, sp, tok, rest, hOcc⟩ := matchAngelCombinedAt_sound_eur hs
      refine h ⟨pre.map pyLowerChar ++ p2, ip, fp, hd, sp, tok, rest,
        ?_, hOcc.2.1, hOcc.2.2.1, hOcc.2.2.2.1, hOcc.2.2.2.2.1, hOcc.2.2.2.2.2.1,
        hOcc.2.2.2.2.2.2⟩
      rw [hl]
      simp only [List.map_append, List.append_assoc]
      rw [hOcc.1]
      simp [List.append_assoc]

theorem matchNumTokAt_usd_complete {toks : List (List Char)}
    {ip fp sp tok rest : List Char} {hd : Bool} (hip : ip ≠ [])
    (hipd : ∀ c ∈ ip, c.isDigit = true) (hfpd : ∀ c ∈ fp, c.isDigit = true)
    (hhd : hd = false → fp = []) (hfne : hd = true → fp ≠ [])
    (hsp : ∀ c ∈ sp, isPySpace c = true)
    (htok : tok ∈ toks) (hth : tokHeadOk tok) :
    matchNumTokAt matchNumUsd toks
      (ip ++ (if hd then '.' :: fp else []) ++ (sp ++ (tok ++ rest))) =
      some (ratOfNumParts ip fp) := by
  have hr := @headIs_sp_tok sp tok rest hsp hth
  have hcm : matchNumUsd ((ip ++ if hd = true then '.' :: fp else []) ++ (sp ++ tok ++ rest)) =
      some (ip, fp, hd, sp ++ tok ++ rest) :=
    matchNumUsd_complete hip hipd hfpd hhd hfne hr
  unfold matchNumTokAt
  rw [show sp ++ (tok ++ rest) = sp ++ tok ++ rest from (List.append_assoc sp tok rest).symm,
    hcm]
  show (if toks.any (fun t => t.isPrefixOf (dropSpaces (sp ++ tok ++ rest))) = true then
      some (ratOfNumParts ip fp) else none) = some (ratOfNumParts ip fp)
  rw [List.append_assoc, dropSpaces_sp_tok hsp hth]
  have hany : (toks.any fun t => t.isPrefixOf (tok ++ rest)) = true :=
    List.any_eq_true.mpr ⟨tok, htok,
      List.isPrefixOf_iff_prefix.mpr (List.prefix_append tok rest)⟩
  rw [if_pos hany]

theorem findUsdTok_value {toks : List (List Char)}
    {pre ip fp sp tok rest : List Char} {hd : Bool}
    (hpre : ∀ c ∈ pre, c.isDigit = false) (hip : ip ≠ [])
    (hipd : ∀ c ∈ ip, c.isDigit = true) (hfpd : ∀ c ∈ fp, c.isDigit = true)
    (hhd : hd = false → fp = []) (hfne : hd = true → fp ≠ [])
    (hsp : ∀ c ∈ sp, isPySpace c = true)
    (htok : tok ∈ toks) (hth : tokHeadOk tok) :
    firstMatch (matchNumTokAt matchNumUsd toks)
      (pre ++ (ip ++ (if hd then '.' :: fp else []) ++ (sp ++ (tok ++ rest)))) =
      some (ratOfNumParts ip fp) := by
  rw [firstMatch_skip (fun c cs hc => matchNumTokAt_usd_nondigit toks cs hc) hpre]
  have hcm := @matchNumTokAt_usd_complete toks ip fp sp tok rest hd hip hipd hfpd hhd hfne
    hsp htok hth
  cases hless : ip ++ (if hd then '.' :: fp else []) ++ (sp ++ (tok ++ rest)) with
  | nil =>
      exfalso
      cases ip with
      | nil => exact hip rfl
      | cons a b => simp at hless
  | cons c cs =>
      rw [← hless]
      conv_lhs => rw [hless, firstMatch]
      rw [← hless, hcm]

/-- An occurrence forces the scanner to succeed (at some position). -/
theorem hasTokOcc_implies_some {toks : List (List Char)} {l : List Char}
    (hocc : hasTokOcc toks l) (hth : ∀ t ∈ toks, tokHeadOk t) :
    firstMatch (matchNumTokAt matchNum toks) l ≠ none := by
  obtain ⟨pre, ip, fp, hd, sp, tok, rest, hdec, hip, hipd, hfpd, hhd, hsp, htok⟩ := hocc
  have hc := @matchNumTokAt_num_complete toks ip fp sp tok rest hd hip hipd hfpd hhd hsp
    htok (hth tok htok)
  have := firstMatch_isSome (matchNumTokAt_num_nil toks) pre hc
  rw [hdec]
  simpa [List.append_assoc] using this

/-- A `$`-occurrence forces the `$` scanner to succeed. -/
theorem hasUsdOcc_implies_some {l : List Char} (hocc : hasUsdOcc l) :
    firstMatch (matchNumTokAt matchNumUsd usdToks) l ≠ none := by
  obtain ⟨pre, ip, fp, hd, sp, tok, rest, ⟨hdec, hip, hipd, hfpd, hhd, hsp, htok⟩, hfne⟩ := hocc
  have hth : tokHeadOk tok := by
    simp only [List.mem_singleton] at htok
    subst htok
    exact ⟨by decide, by decide, by decide⟩
  have hc := @matchNumTokAt_usd_complete [['$']] ip fp sp tok rest hd hip hipd hfpd hhd hfne
    hsp htok hth
  have := firstMatch_isSome (matchNumTokAt_usd_nil [['$']]) pre hc
  rw [show usdToks = [['$']] from rfl, hdec]
  simpa [List.append_assoc] using this

theorem eurToks_headOk : ∀ t ∈ eurToks, tokHeadOk t := by
  intro t ht
  simp only [eurToks, List.mem_cons, List.mem_singleton, List.not_mem_nil, or_false] at ht
  rcases ht with rfl | rfl
  · exact ⟨by decide, by decide, by decide⟩
  · exact ⟨by decide, by decide, by decide⟩

theorem bgnToks_headOk : ∀ t ∈ bgnToks, tokHeadOk t := by
  intro t ht
  simp only [bgnToks, List.mem_cons, List.mem_singleton, List.not_mem_nil, or_false] at ht
  rcases ht with rfl | rfl
  · exact ⟨by decide, by decide, by decide⟩
  · exact ⟨by decide, by decide, by decide⟩

theorem lvToks_headOk : ∀ t ∈ lvToks, tokHeadOk t := by
  intro t ht
  simp only [lvToks, List.mem_singleton] at ht
  subst ht
  exact ⟨by decide, by decide, by decide⟩

/-- `lowStrip` is the character-wise lower-casing of `oriStrip`. -/
theorem lowStrip_eq_map (s : String) : lowStrip s = (oriStrip s).map pyLowerChar := rfl

/-! ### Characterization of the `parse_price` branches -/

theorem parse_price_of_eur {s agency : String} {q : ℚ}
    (h : findEur (lowStrip s) = some q) : parse_price s agency = some q := by
  unfold parse_price
  rw [h]

theorem parse_price_of_no_eur {s agency : String}
    (h : findEur (lowStrip s) = none) :
    parse_price s agency =
      if agency = "Angel Travel" then parse_price_angel s else parse_price_other s := by
  unfold parse_price
  rw [h]

theorem parse_price_angel_of_lv {s : String} {b : ℚ}
    (h1 : findAngelCombined (oriStrip s) = none)
    (h2 : findAngelBgn (oriStrip s) = some b) :
    parse_price_angel s = some (round2 (ratMul b BGN_TO_EUR)) := by
  unfold parse_price_angel
  rw [h1]
  show (match findAngelBgn (oriStrip s) with
    | some b => some (round2 (ratMul b BGN_TO_EUR))
    | none => none) = some (round2 (ratMul b BGN_TO_EUR))
  rw [h2]

theorem parse_price_angel_of_none {s : String}
    (h1 : findAngelCombined (oriStrip s) = none)
    (h2 : findAngelBgn (oriStrip s) = none) :
    parse_price_angel s = none := by
  unfold parse_price_angel
  rw [h1]
  show (match findAngelBgn (oriStrip s) with
    | some b => some (round2 (ratMul b BGN_TO_EUR))
    | none => none) = none
  rw [h2]

theorem parse_price_other_of_bgn {s : String} {b : ℚ}
    (h : findBgn (lowStrip s) = some b) :
    parse_price_other s = some (round2 (ratMul b BGN_TO_EUR)) := by
  unfold parse_price_other
  rw [h]

theorem parse_price_other_of_usd {s : String} {u : ℚ}
    (h1 : findBgn (lowStrip s) = none) (h2 : findUsd (oriStrip s) = some u) :
    parse_price_other s = some (round2 (ratMul u USD_TO_EUR)) := by
  unfold parse_price_other
  rw [h1]
  show (match findUsd (oriStrip s) with
    | some u => some (round2 (ratMul u USD_TO_EUR))
    | none => none) = some (round2 (ratMul u USD_TO_EUR))
  rw [h2]

theorem parse_price_other_of_none {s : String}
    (h1 : findBgn (lowStrip s) = none) (h2 : findUsd (oriStrip s) = none) :
    parse_price_other s = none := by
  unfold parse_price_other
  rw [h1]
  show (match findUsd (oriStrip s) with
    | some u => some (round2 (ratMul u USD_TO_EUR))
    | none => none) = none
  rw [h2]

/-! ### Claim C4 -/

/-- **C4, counterexample.**  The claim states that for *every* agency a BGN
amount is converted at the fixed rate when no EUR amount is present.  For
agency `Angel Travel` the string `"100 BGN"` contains a BGN amount and no EUR
amount, yet `parse_price` returns `None`: the Angel Travel branch only
recognises `лв`, not `BGN`.  (For any other agency the same string converts.) -/
theorem parse_price_bgn_angel_counterexample :
    parse_price "100 BGN" "Angel Travel" = none ∧
    some (round2 ((100 : ℚ) * BGN_TO_EUR)) ≠ (none : Option ℚ) ∧
    parse_price "100 BGN" "Aratur" = some (round2 (100 * BGN_TO_EUR)) := by
  refine ⟨by decide, by simp, ?_⟩
  rw [show (100 : ℚ) * BGN_TO_EUR = ratMul 100 BGN_TO_EUR from (ratMul_eq _ _).symm]
  decide

/-- **C4 (amended).**  `parse_price` converts prices to EUR as follows: (a)
for every agency, a number followed (after optional spaces) by `EUR`/`eur` or
`€` in the stripped, lower-cased string is returned unchanged (the leftmost
such number when the text before it has no digits), taking precedence over
any BGN amount; (b) when no EUR amount is present, for agencies other than
`Angel Travel` a number followed by `bgn` or `лв` is multiplied by the rate
0.511292981 and rounded to 2 decimals; (c) for `Angel Travel` only a
case-sensitive `лв` amount is converted this way (the combined `лв / EUR`
format is subsumed by the EUR rule); (d) for agencies other than
`Angel Travel` a `$` amount is otherwise converted at 0.85; (e) `None` is
returned when none of the applicable formats occurs. -/
theorem parse_price_amended (s agency : String) :
    (∀ pre ip fp (hd : Bool) sp tok rest,
        lowStrip s = pre ++ (ip ++ (if hd then '.' :: fp else []) ++ (sp ++ (tok ++ rest))) →
        (∀ c ∈ pre, c.isDigit = false) → ip ≠ [] → (∀ c ∈ ip, c.isDigit = true) →
        (∀ c ∈ fp, c.isDigit = true) → (hd = false → fp = []) →
        (∀ c ∈ sp, isPySpace c = true) → tok ∈ eurToks →
        parse_price s agency = some (ratOfNumParts ip fp)) ∧
    (¬ hasTokOcc eurToks (lowStrip s) → agency ≠ "Angel Travel" →
      ∀ pre ip fp (hd : Bool) sp tok rest,
        lowStrip s = pre ++ (ip ++ (if hd then '.' :: fp else []) ++ (sp ++ (tok ++ rest))) →
        (∀ c ∈ pre, c.isDigit = false) → ip ≠ [] → (∀ c ∈ ip, c.isDigit = true) →
        (∀ c ∈ fp, c.isDigit = true) → (hd = false → fp = []) →
        (∀ c ∈ sp, isPySpace c = true) → tok ∈ bgnToks →
        parse_price s agency = some (round2 (ratOfNumParts ip fp * BGN_TO_EUR))) ∧
    (¬ hasTokOcc eurToks (lowStrip s) →
      ∀ pre ip fp (hd : Bool) sp tok rest,
        oriStrip s = pre ++ (ip ++ (if hd then '.' :: fp else []) ++ (sp ++ (tok ++ rest))) →
        (∀ c ∈ pre, c.isDigit = false) → ip ≠ [] → (∀ c ∈ ip, c.isDigit = true) →
        (∀ c ∈ fp, c.isDigit = true) → (hd = false → fp = []) →
        (∀ c ∈ sp, isPySpace c = true) → tok ∈ lvToks →
        parse_price s "Angel Travel" = some (round2 (ratOfNumParts ip fp * BGN_TO_EUR))) ∧
    (¬ hasTokOcc eurToks (lowStrip s) → ¬ hasTokOcc bgnToks (lowStrip s) →
      agency ≠ "Angel Travel" →
      ∀ pre ip fp (hd : Bool) sp tok rest,
        oriStrip s = pre ++ (ip ++ (if hd then '.' :: fp else []) ++ (sp ++ (tok ++ rest))) →
        (∀ c ∈ pre, c.isDigit = false) → ip ≠ [] → (∀ c ∈ ip, c.isDigit = true) →
        (∀ c ∈ fp, c.isDigit = true) → (hd = false → fp = []) → (hd = true → fp ≠ []) →
        (∀ c ∈ sp, isPySpace c = true) → tok ∈ usdToks →
        parse_price s agency = some (round2 (ratOfNumParts ip fp * USD_TO_EUR))) ∧
    (¬ hasTokOcc eurToks (lowStrip s) → ¬ hasTokOcc bgnToks (lowStrip s) →
      ¬ hasUsdOcc (oriStrip s) → agency ≠ "Angel Travel" → parse_price s agency = none) ∧
    (¬ hasTokOcc eurToks (lowStrip s) → ¬ hasTokOcc lvToks (oriStrip s) →
      parse_price s "Angel Travel" = none) := by
  refine ⟨?_, ?_, ?_, ?_, ?_, ?_⟩
  · intro pre ip fp hd sp tok rest hdec hpre hip hipd hfpd hhd hsp htok
    apply parse_price_of_eur
    show firstMatch (matchNumTokAt matchNum eurToks) (lowStrip s) = some (ratOfNumParts ip fp)
    rw [hdec]
    exact findNumTok_value hpre hip hipd hfpd hhd hsp htok (eurToks_headOk tok htok)
  · intro hne hag pre ip fp hd sp tok rest hdec hpre hip hipd hfpd hhd hsp htok
    rw [parse_price_of_no_eur (findNumTok_none_of_not_occ hne), if_neg hag,
      ← ratMul_eq]
    apply parse_price_other_of_bgn
    show firstMatch (matchNumTokAt matchNum bgnToks) (lowStrip s) = some (ratOfNumParts ip fp)
    rw [hdec]
    exact findNumTok_value hpre hip hipd hfpd hhd hsp htok (bgnToks_headOk tok htok)
  · intro hne pre ip fp hd sp tok rest hdec hpre hip hipd hfpd hhd hsp htok
    rw [parse_price_of_no_eur (findNumTok_none_of_not_occ hne), if_pos rfl]
    have hcomb : findAngelCombined (oriStrip s) = none := by
      apply findAngelCombined_none_of_not_eurocc
      rw [← lowStrip_eq_map]
      exact hne
    rw [← ratMul_eq]
    apply parse_price_angel_of_lv hcomb
    show firstMatch (matchNumTokAt matchNum lvToks) (oriStrip s) = some (ratOfNumParts ip fp)
    rw [hdec]
    exact findNumTok_value hpre hip hipd hfpd hhd hsp htok (lvToks_headOk tok htok)
  · intro hne hnb hag pre ip fp hd sp tok rest hdec hpre hip hipd hfpd hhd hfne hsp htok
    rw [parse_price_of_no_eur (findNumTok_none_of_not_occ hne), if_neg hag,
      ← ratMul_eq]
    apply parse_price_other_of_usd (findNumTok_none_of_not_occ hnb)
    show firstMatch (matchNumTokAt matchNumUsd usdToks) (oriStrip s) = some (ratOfNumParts ip fp)
    rw [hdec]
    have hth : tokHeadOk tok := by
      simp only [usdToks, List.mem_singleton] at htok
      subst htok
      exact ⟨by decide, by decide, by decide⟩
    exact findUsdTok_value hpre hip hipd hfpd hhd hfne hsp htok hth
  · intro hne hnb hnu hag
    rw [parse_price_of_no_eur (findNumTok_none_of_not_occ hne), if_neg hag]
    exact parse_price_other_of_none (findNumTok_none_of_not_occ hnb)
      (findUsd_none_of_not_occ hnu)
  · intro hne hnl
    rw [parse_price_of_no_eur (findNumTok_none_of_not_occ hne), if_pos rfl]
    have hcomb : findAngelCombined (oriStrip s) = none := by
      apply findAngelCombined_none_of_not_eurocc
      rw [← lowStrip_eq_map]
      exact hne
    exact parse_price_angel_of_none hcomb (findNumTok_none_of_not_occ hnl)

/-- Witness for `parse_price_amended`: each clause applied at a concrete
price string. -/
theorem parse_price_amended_witness :
    parse_price "5 EUR" "Aratur" = some 5 ∧
    parse_price "100 лв" "Dari Tour" = some (mkRat 5113 100) ∧
    parse_price "100 лв" "Angel Travel" = some (mkRat 5113 100) ∧
    parse_price "20$" "Aratur" = some 17 ∧
    parse_price "няма" "Aratur" = none ∧
    parse_price "няма" "Angel Travel" = none := by
  have hne1 : ¬ hasTokOcc eurToks (lowStrip "100 лв") := fun hocc =>
    absurd (by decide :
        firstMatch (matchNumTokAt matchNum eurToks) (lowStrip "100 лв") = none)
      (hasTokOcc_implies_some hocc eurToks_headOk)
  have hne2 : ¬ hasTokOcc eurToks (lowStrip "20$") := fun hocc =>
    absurd (by decide :
        firstMatch (matchNumTokAt matchNum eurToks) (lowStrip "20$") = none)
      (hasTokOcc_implies_some hocc eurToks_headOk)
  have hnb2 : ¬ hasTokOcc bgnToks (lowStrip "20$") := fun hocc =>
    absurd (by decide :
        firstMatch (matchNumTokAt matchNum bgnToks) (lowStrip "20$") = none)
      (hasTokOcc_implies_some hocc bgnToks_headOk)
  have hne3 : ¬ hasTokOcc eurToks (lowStrip "няма") := fun hocc =>
    absurd (by decide :
        firstMatch (matchNumTokAt matchNum eurToks) (lowStrip "няма") = none)
      (hasTokOcc_implies_some hocc eurToks_headOk)
  have hnb3 : ¬ hasTokOcc bgnToks (lowStrip "няма") := fun hocc =>
    absurd (by decide :
        firstMatch (matchNumTokAt matchNum bgnToks) (lowStrip "няма") = none)
      (hasTokOcc_implies_some hocc bgnToks_headOk)
  have hnl3 : ¬ hasTokOcc lvToks (oriStrip "няма") := fun hocc =>
    absurd (by decide :
        firstMatch (matchNumTokAt matchNum lvToks) (oriStrip "няма") = none)
      (hasTokOcc_implies_some hocc lvToks_headOk)
  have hnu3 : ¬ hasUsdOcc (oriStrip "няма") := fun hocc =>
    absurd (by decide :
        firstMatch (matchNumTokAt matchNumUsd usdToks) (oriStrip "няма") = none)
      (hasUsdOcc_implies_some hocc)
  refine ⟨?_, ?_, ?_, ?_, ?_, ?_⟩
  · have h := (parse_price_amended "5 EUR" "Aratur").1 [] ['5'] [] false [' ']
      ['e', 'u', 'r'] [] (by decide) (by decide) (by decide) (by decide) (by decide)
      (by decide) (by decide) (by decide)
    exact h.trans (by decide)
  · have h := (parse_price_amended "100 лв" "Dari Tour").2.1 hne1 (by decide)
      [] ['1', '0', '0'] [] false [' '] ['л', 'в'] [] (by decide) (by decide) (by decide)
      (by decide) (by decide) (by decide) (by decide) (by decide)
    exact h.trans (by rw [← ratMul_eq]; decide)
  · have h := (parse_price_amended "100 лв" "Angel Travel").2.2.1 hne1
      [] ['1', '0', '0'] [] false [' '] ['л', 'в'] [] (by decide) (by decide) (by decide)
      (by decide) (by decide) (by decide) (by decide) (by decide)
    exact h.trans (by rw [← ratMul_eq]; decide)
  · have h := (parse_price_amended "20$" "Aratur").2.2.2.1 hne2 hnb2 (by decide)
      [] ['2', '0'] [] false [] ['$'] [] (by decide) (by decide) (by decide)
      (by decide) (by decide) (by decide) (by decide) (by decide) (by decide)
    exact h.trans (by rw [← ratMul_eq]; decide)
  · exact (parse_price_amended "няма" "Aratur").2.2.2.2.1 hne3 hnb3 hnu3 (by decide)
  · exact (parse_price_amended "няма" "Angel Travel").2.2.2.2.2 hne3 hnl3

/-! ### Concrete instances used by the claim theorems -/

/-- A trivial oracle environment: no destination mappings, no fuzzy matches,
a date parser that always raises, and `uuid.uuid4()` returning `""`. -/
def env0 : Env :=
  { mappings := [], fuzzy := fun _ _ => none, dateParse := fun _ => none,
    uuid := fun _ => "" }

/-- An HTTP / Playwright oracle that never returns a date range. -/
def noFetch : ℕ → Option (String × String) := fun _ => none

/-! ### Claim C1 -/

/-- **C1, counterexample.**  The claim states that the unified record's field
set is exactly `{id, agency, price_eur, dates_start, dates_end,
duration_days, link, scraped_at}`.  The record built by `standardize_offer`
(here for the empty offer dict and agency `Aratur`) also carries the fields
`title` and `destination`, so its key list is not the claimed one. -/
theorem standardize_offer_fields_counterexample :
    (standardize_offer env0 (env0.uuid 0) [] "Aratur").map Prod.fst ≠
      ["id", "agency", "price_eur", "dates_start", "dates_end", "duration_days",
       "link", "scraped_at"] := by
  decide

/-- **C1 (amended).**  For every input offer dictionary and every agency name,
`standardize_offer` returns a record whose fields are exactly `id`, `agency`,
`title`, `destination`, `price_eur`, `dates_start`, `dates_end`,
`duration_days`, `link`, `scraped_at`, in this order: the claimed schema plus
the two fields `title` and `destination`. -/
theorem standardize_offer_fields (env : Env) (uid : String) (offer : RawOffer)
    (agency : String) :
    (standardize_offer env uid offer agency).map Prod.fst =
      ["id", "agency", "title", "destination", "price_eur", "dates_start",
       "dates_end", "duration_days", "link", "scraped_at"] := rfl

/-! ### Claim C2 -/

/-- **C2, counterexample.**  The claim states that every record a scraper
writes carries exactly the fields `{title, link, price, dates, destination,
scraped_at}`.  The record written by `AratourScraper.save_results` carries
only `{title, link, price, dates}` and the one written by
`DariTourScraper.save_results` only `{title, link, price, dates,
destination}`: neither writes `scraped_at`, and Aratour also omits
`destination`. -/
theorem save_results_fields_counterexample :
    (aratourSaveRecord
        ⟨"", "", "", "", "", "", "", "", "", [], [], [], ""⟩).map Prod.fst ≠
      ["title", "link", "price", "dates", "destination", "scraped_at"] ∧
    (dariSaveRecord ⟨"", "", "", "", "", ""⟩).map Prod.fst ≠
      ["title", "link", "price", "dates", "destination", "scraped_at"] := by
  decide

/-- **C2 (amended).**  Every record written by `DariTourScraper.save_results`
carries exactly the fields `title, link, price, dates, destination` (no
`scraped_at`), and every record written by `AratourScraper.save_results`
carries exactly the fields `title, link, price, dates` (no `destination`, no
`scraped_at`). -/
theorem save_results_fields (ld : List DariTourOffer) (la : List AratourOffer) :
    (∀ r ∈ dari_save_results ld,
      r.map Prod.fst = ["title", "link", "price", "dates", "destination"]) ∧
    (∀ r ∈ aratour_save_results la,
      r.map Prod.fst = ["title", "link", "price", "dates"]) := by
  constructor
  · intro r hr
    obtain ⟨o, _, rfl⟩ := List.mem_map.mp hr
    rfl
  · intro r hr
    obtain ⟨o, _, rfl⟩ := List.mem_map.mp hr
    rfl

/-! ### Claim C3 -/

theorem dedupGo_sublist (seen : List (String × String)) (l : List DariTourOffer) :
    List.Sublist (dedupGo seen l) l := by
  induction l generalizing seen with
  | nil => simp [dedupGo]
  | cons o rest ih =>
      unfold dedupGo
      by_cases hk : dKey o ∈ seen
      · rw [if_pos hk]
        exact (ih seen).cons o
      · rw [if_neg hk]
        exact (ih (dKey o :: seen)).cons₂ o

theorem dedupGo_not_seen (seen : List (String × String)) (l : List DariTourOffer) :
    ∀ o ∈ dedupGo seen l, dKey o ∉ seen := by
  induction l generalizing seen with
  | nil => simp [dedupGo]
  | cons a rest ih =>
      intro o ho
      unfold dedupGo at ho
      by_cases hk : dKey a ∈ seen
      · rw [if_pos hk] at ho
        exact ih seen o ho
      · rw [if_neg hk] at ho
        rcases List.mem_cons.mp ho with h | h
        · subst h; exact hk
        · exact fun hs => ih (dKey a :: seen) o h (List.mem_cons_of_mem _ hs)

theorem dedupGo_pairwise (seen : List (String × String)) (l : List DariTourOffer) :
    (dedupGo seen l).Pairwise (fun a b => dKey a ≠ dKey b) := by
  induction l generalizing seen with
  | nil => simp [dedupGo]
  | cons a rest ih =>
      unfold dedupGo
      by_cases hk : dKey a ∈ seen
      · rw [if_pos hk]
        exact ih seen
      · rw [if_neg hk]
        refine List.Pairwise.cons ?_ (ih (dKey a :: seen))
        intro b hb
        have := dedupGo_not_seen (dKey a :: seen) rest b hb
        intro he
        exact this (he ▸ List.mem_cons_self _ _)

theorem dedupGo_covers (seen : List (String × String)) (l : List DariTourOffer) :
    ∀ o ∈ l, dKey o ∈ seen ∨ ∃ p ∈ dedupGo seen l, dKey p = dKey o := by
  induction l generalizing seen with
  | nil => simp
  | cons a rest ih =>
      intro o ho
      unfold dedupGo
      by_cases hk : dKey a ∈ seen
      · rw [if_pos hk]
        rcases List.mem_cons.mp ho with h | h
        · subst h; exact Or.inl hk
        · exact ih seen o h
      · rw [if_neg hk]
        rcases List.mem_cons.mp ho with h | h
        · subst h
          exact Or.inr ⟨o, List.mem_cons_self _ _, rfl⟩
        · rcases ih (dKey a :: seen) o h with hs | ⟨p, hp, he⟩
          · rcases List.mem_cons.mp hs with h2 | h2
            · exact Or.inr ⟨a, List.mem_cons_self _ _, h2.symm⟩
            · exact Or.inl h2
          · exact Or.inr ⟨p, List.mem_cons_of_mem _ hp, he⟩

theorem dedupGo_first (seen : List (String × String)) (l : List DariTourOffer) :
    ∀ o ∈ dedupGo seen l,
      l.find? (fun x => decide (dKey x = dKey o)) = some o := by
  induction l generalizing seen with
  | nil => simp [dedupGo]
  | cons a rest ih =>
      intro o ho
      unfold dedupGo at ho
      by_cases hk : dKey a ∈ seen
      · rw [if_pos hk] at ho
        have hne : dKey a ≠ dKey o := by
          intro he
          exact dedupGo_not_seen seen rest o ho (he ▸ hk)
        rw [List.find?_cons_of_neg _ (by simpa using hne)]
        exact ih seen o ho
      · rw [if_neg hk] at ho
        rcases List.mem_cons.mp ho with h | h
        · subst h
          rw [List.find?_cons_of_pos _ (by simp)]
        · have hni := dedupGo_not_seen (dKey a :: seen) rest o h
          have hne : dKey a ≠ dKey o := by
            intro he
            exact hni (he ▸ List.mem_cons_self _ _)
          rw [List.find?_cons_of_neg _ (by simpa using hne)]
          exact ih (dKey a :: seen) o h

/-- **C3.**  The deduplication step of `DariTourScraper.scrape_all_offers`
returns a sublist of the input (so input order is preserved), no two of
whose elements share a `(title, link)` key; every input key is represented,
and each returned offer is the first offer of the input carrying its key. -/
theorem dedup_offers_spec (l : List DariTourOffer) :
    List.Sublist (dedup_offers l) l ∧
    (dedup_offers l).Pairwise (fun a b => dKey a ≠ dKey b) ∧
    (∀ o ∈ l, ∃ p ∈ dedup_offers l, dKey p = dKey o) ∧
    (∀ o ∈ dedup_offers l, l.find? (fun x => decide (dKey x = dKey o)) = some o) := by
  refine ⟨dedupGo_sublist [] l, dedupGo_pairwise [] l, ?_, dedupGo_first [] l⟩
  intro o ho
  rcases dedupGo_covers [] l o ho with h | h
  · exact absurd h (List.not_mem_nil _)
  · exact h

/-! ### Claim C10 -/

theorem analyzeDatesGo_perm (l : List RawOffer) : ∀ i : ℕ,
    ((analyzeDatesGo i l).1 ++
      ((analyzeDatesGo i l).2.1 ++ (analyzeDatesGo i l).2.2)).Perm
      (List.range' i l.length) := by
  induction l with
  | nil => intro i; simp [analyzeDatesGo]
  | cons o rest ih =>
      intro i
      have ih1 := ih (i + 1)
      rcases hrec : analyzeDatesGo (i + 1) rest with ⟨e, iv, v⟩
      rw [hrec] at ih1
      simp only at ih1
      have hstep : analyzeDatesGo i (o :: rest) =
          (if pyStrip (rawGet o "dates") = "" then (i :: e, iv, v)
           else if ¬ dariDatePat (pyStrip (rawGet o "dates")).toList then (e, i :: iv, v)
           else (e, iv, i :: v)) := by
        simp only [analyzeDatesGo, hrec]
      rw [hstep]
      simp only [List.length_cons, List.range'_succ]
      split_ifs with h1 h2
      · simpa using ih1.cons i
      · refine (List.Perm.trans ?_ (ih1.cons i))
        show (e ++ (iv ++ (i :: v))).Perm (i :: (e ++ (iv ++ v)))
        have h3 : e ++ (iv ++ (i :: v)) = (e ++ iv) ++ (i :: v) :=
          (List.append_assoc e iv (i :: v)).symm
        rw [h3]
        refine List.perm_middle.trans ?_
        rw [List.append_assoc]
      · exact List.Perm.trans List.perm_middle (ih1.cons i)

theorem analyzePricesGo_perm (l : List RawOffer) : ∀ i : ℕ,
    ((analyzePricesGo i l).1 ++ ((analyzePricesGo i l).2.1 ++
      ((analyzePricesGo i l).2.2.1 ++ ((analyzePricesGo i l).2.2.2.1 ++
        (analyzePricesGo i l).2.2.2.2)))).Perm (List.range' i l.length) := by
  induction l with
  | nil => intro i; simp [analyzePricesGo]
  | cons o rest ih =>
      intro i
      have ih1 := ih (i + 1)
      rcases hrec : analyzePricesGo (i + 1) rest with ⟨e, iv, lo, hi, v⟩
      rw [hrec] at ih1
      simp only at ih1
      have hstep : analyzePricesGo i (o :: rest) =
          (if pyStrip (rawGet o "price") = "" then (i :: e, iv, lo, hi, v)
           else if ¬ dariPricePat (pyStrip (rawGet o "price")).toList then
             (e, i :: iv, lo, hi, v)
           else
             match dariNumericPrice (pyStrip (rawGet o "price")) with
             | none => (e, i :: iv, lo, hi, v)
             | some q =>
                 if q < 100 then (e, iv, i :: lo, hi, v)
                 else if q > 10000 then (e, iv, lo, i :: hi, v)
                 else (e, iv, lo, hi, i :: v)) := by
        simp only [analyzePricesGo, hrec]
      rw [hstep]
      simp only [List.length_cons, List.range'_succ]
      have hmid2 : (e ++ (i :: (iv ++ (lo ++ (hi ++ v))))).Perm
          (i :: (e ++ (iv ++ (lo ++ (hi ++ v))))) := List.perm_middle
      have hmid3 : (e ++ (iv ++ (i :: (lo ++ (hi ++ v))))).Perm
          (i :: (e ++ (iv ++ (lo ++ (hi ++ v))))) := by
        have h1 : e ++ (iv ++ (i :: (lo ++ (hi ++ v)))) =
            (e ++ iv) ++ (i :: (lo ++ (hi ++ v))) :=
          (List.append_assoc e iv _).symm
        rw [h1]
        refine List.perm_middle.trans ?_
        rw [List.append_assoc]
      have hmid4 : (e ++ (iv ++ (lo ++ (i :: (hi ++ v))))).Perm
          (i :: (e ++ (iv ++ (lo ++ (hi ++ v))))) := by
        have h1 : e ++ (iv ++ (lo ++ (i :: (hi ++ v)))) =
            ((e ++ iv) ++ lo) ++ (i :: (hi ++ v)) := by
          simp [List.append_assoc]
        rw [h1]
        refine List.perm_middle.trans ?_
        simp [List.append_assoc]
      have hmid5 : (e ++ (iv ++ (lo ++ (hi ++ (i :: v))))).Perm
          (i :: (e ++ (iv ++ (lo ++ (hi ++ v))))) := by
        have h1 : e ++ (iv ++ (lo ++ (hi ++ (i :: v)))) =
            (((e ++ iv) ++ lo) ++ hi) ++ (i :: v) := by
          simp [List.append_assoc]
        rw [h1]
        refine List.perm_middle.trans ?_
        simp [List.append_assoc]
      split_ifs with h1 h2
      · simpa using ih1.cons i
      · cases hq : dariNumericPrice (pyStrip (rawGet o "price")) with
        | none => exact hmid2.trans (ih1.cons i)
        | some q =>
            simp only
            split_ifs with h3 h4
            · exact hmid3.trans (ih1.cons i)
            · exact hmid4.trans (ih1.cons i)
            · exact hmid5.trans (ih1.cons i)
      · exact hmid2.trans (ih1.cons i)

/-- **C10.**  The three index lists of `analyze_offer_dates` and the five
index lists of `analyze_offer_prices`, concatenated, are a permutation of
`0, …, len(offers) − 1`: each offer index appears in exactly one list (so the
lists are pairwise disjoint, each is duplicate-free, and their union is
exactly the index set). -/
theorem analyze_partition (offers : List RawOffer) :
    ((analyze_offer_dates offers).1 ++ ((analyze_offer_dates offers).2.1 ++
      (analyze_offer_dates offers).2.2)).Perm (List.range offers.length) ∧
    ((analyze_offer_prices offers).1 ++ ((analyze_offer_prices offers).2.1 ++
      ((analyze_offer_prices offers).2.2.1 ++ ((analyze_offer_prices offers).2.2.2.1 ++
        (analyze_offer_prices offers).2.2.2.2)))).Perm (List.range offers.length) := by
  rw [List.range_eq_range']
  exact ⟨analyzeDatesGo_perm offers 0, analyzePricesGo_perm offers 0⟩

/-! ### Claim C9 -/

theorem is_valid_price {offer : StdOffer} (h : is_valid_travel_offer offer = true) :
    ∃ q, dictGetNum offer "price_eur" = some q ∧ q ≠ 0 := by
  unfold is_valid_travel_offer at h
  split at h
  case h_1 => simp [ite_self] at h
  case h_2 =>
    rename_i q hq
    split at h
    · simp [ite_self] at h
    · rename_i hne
      exact ⟨q, hq, hne⟩

theorem process_file_valid (env : Env) (agency : String) :
    ∀ (l : List RawOffer) (n0 : ℕ), ∀ o ∈ process_file env n0 agency l,
      is_valid_travel_offer o = true := by
  intro l
  induction l with
  | nil => intro n0 o ho; simp [process_file] at ho
  | cons a rest ih =>
      intro n0 o ho
      unfold process_file at ho
      rcases List.mem_append.mp ho with h | h
      · by_cases hv : is_valid_travel_offer
            (standardize_offer env (env.uuid n0) a agency) = true
        · rw [if_pos hv] at h
          rcases List.mem_singleton.mp h with rfl
          exact hv
        · rw [if_neg hv] at h
          exact absurd h (List.not_mem_nil o)
      · exact ih (n0 + 1) o h

theorem process_go_valid (env : Env) :
    ∀ (fs : List (String × Option (List RawOffer))) (n0 : ℕ),
      ∀ o ∈ process_go env n0 fs, is_valid_travel_offer o = true := by
  intro fs
  induction fs with
  | nil => intro n0 o ho; simp [process_go] at ho
  | cons f rest ih =>
      intro n0 o ho
      obtain ⟨fp, c⟩ := f
      cases c with
      | none => exact ih n0 o ho
      | some offers =>
          rcases List.mem_append.mp ho with h | h
          · exact process_file_valid env (agencyFor fp) offers n0 o h
          · exact ih (n0 + offers.length) o h

/-- **C9.**  Every offer in the list returned by `process_files` carries a
`price_eur` that is a number and nonzero: `is_valid_travel_offer` rejects a
standardized offer whose `price_eur` is `None` or `0` before it is appended. -/
theorem process_files_price_valid (env : Env)
    (files : List (String × Option (List RawOffer))) :
    ∀ o ∈ process_files env files,
      ∃ q, dictGetNum o "price_eur" = some q ∧ q ≠ 0 :=
  fun o ho => is_valid_price (process_go_valid env files 0 o ho)

/-- A raw offer accepted by the pipeline: a three-word title and an EUR price. -/
def offer9 : RawOffer :=
  [("title", "Екскурзия до Гърция лято"), ("price", "100 EUR")]

/-- One input file for `process_files`, with `offer9` as its parsed content. -/
def files9 : List (String × Option (List RawOffer)) :=
  [("data/aratur.json", some [offer9])]

/-- Witness for `process_files_price_valid`: the offer standardized from
`offer9` is in the output of `process_files env0 files9`, and the theorem
yields its nonzero price. -/
theorem process_files_price_valid_witness :
    ∃ q, dictGetNum (standardize_offer env0 (env0.uuid 0) offer9 "Aratur")
        "price_eur" = some q ∧ q ≠ 0 :=
  process_files_price_valid env0 files9
    (standardize_offer env0 (env0.uuid 0) offer9 "Aratur") (by decide)

/-! ### Claim C7 -/

instance : Inhabited BOffer := ⟨⟨"", "", "", "", "", ""⟩⟩

theorem mapIdxFrom_append {α : Type} (f : ℕ → α → α) :
    ∀ (l1 l2 : List α) (i : ℕ),
      mapIdxFrom f i (l1 ++ l2) =
        mapIdxFrom f i l1 ++ mapIdxFrom f (i + l1.length) l2 := by
  intro l1
  induction l1 with
  | nil => intro l2 i; simp [mapIdxFrom]
  | cons a t ih =>
      intro l2 i
      simp only [List.cons_append, mapIdxFrom, List.length_cons, List.append_eq]
      rw [ih]
      have he : i + (t.length + 1) = i + 1 + t.length := by omega
      rw [he]

theorem enrichGo_eq (http pw : ℕ → Option (String × String)) (b : ℕ) (hb : 0 < b) :
    ∀ (i : ℕ) (l : List BOffer),
      enrichGo http pw b hb i l = mapIdxFrom (enrichOne http pw) i l := by
  intro i l
  induction i, l using enrichGo.induct http pw b hb with
  | case1 i => simp [enrichGo, mapIdxFrom]
  | case2 i o tail ih =>
      rw [enrichGo, ih]
      by_cases hlen : (o :: tail).length ≤ b
      · rw [List.drop_eq_nil_of_le hlen, List.take_of_length_le hlen]
        simp [mapIdxFrom]
      · conv_rhs => rw [← List.take_append_drop b (o :: tail)]
        rw [mapIdxFrom_append]
        have hl : (List.take b (o :: tail)).length = b := by
          rw [List.length_take]
          omega
        rw [hl]

theorem mapIdxFrom_length {α : Type} (f : ℕ → α → α) :
    ∀ (l : List α) (i : ℕ), (mapIdxFrom f i l).length = l.length := by
  intro l
  induction l with
  | nil => intro i; rfl
  | cons a t ih => intro i; simp [mapIdxFrom, ih]

theorem mapIdxFrom_getD {α : Type} [Inhabited α] (f : ℕ → α → α) :
    ∀ (l : List α) (i j : ℕ), j < l.length →
      (mapIdxFrom f i l).getD j default = f (i + j) (l.getD j default) := by
  intro l
  induction l with
  | nil => intro i j hj; simp at hj
  | cons a t ih =>
      intro i j hj
      cases j with
      | zero => simp [mapIdxFrom]
      | succ j =>
          simp only [mapIdxFrom, List.getD_cons_succ]
          rw [ih (i + 1) j (by simpa using hj)]
          have : i + 1 + j = i + (j + 1) := by omega
          rw [this]

theorem enrichOne_frame (http pw : ℕ → Option (String × String)) (i : ℕ) (o : BOffer) :
    (enrichOne http pw i o).title = o.title ∧
    (enrichOne http pw i o).link = o.link ∧
    (enrichOne http pw i o).price = o.price ∧
    (enrichOne http pw i o).destination = o.destination ∧
    (enrichOne http pw i o).scraped_at = o.scraped_at ∧
    ((enrichOne http pw i o).dates = o.dates ∨
      ∃ a c, (enrichOne http pw i o).dates = a ++ " - " ++ c) := by
  unfold enrichOne
  cases truthyPair (http i) with
  | some p =>
      obtain ⟨a, c⟩ := p
      exact ⟨rfl, rfl, rfl, rfl, rfl, Or.inr ⟨a, c, rfl⟩⟩
  | none =>
      cases truthyPair (pw i) with
      | some p =>
          obtain ⟨a, c⟩ := p
          exact ⟨rfl, rfl, rfl, rfl, rfl, Or.inr ⟨a, c, rfl⟩⟩
      | none => exact ⟨rfl, rfl, rfl, rfl, rfl, Or.inl rfl⟩

/-- **C7, counterexample.**  The claim states that `enrich_offers_with_dates`
returns the offer list it was given, for every list.  On the empty list the
final progress report divides by `total = 0` and the call raises
`ZeroDivisionError` (modelled by `none`) instead of returning the list. -/
theorem enrich_offers_empty_counterexample :
    enrich_offers_with_dates noFetch noFetch 1 Nat.one_pos [] = none ∧
    (none : Option (List BOffer)) ≠ some [] := ⟨rfl, by simp⟩

/-- **C7 (amended).**  On every nonempty offer list,
`enrich_offers_with_dates` returns a list of the same length in which the
offer at each position keeps its `title`, `link`, `price`, `destination` and
`scraped_at`, and its `dates` field is either unchanged or set to a string of
the form `"first - last"`; on the empty list the call raises
`ZeroDivisionError` instead (modelled by `none`). -/
theorem enrich_offers_amended (http pw : ℕ → Option (String × String)) (b : ℕ)
    (hb : 0 < b) (offers : List BOffer) (hne : offers ≠ []) :
    ∃ l, enrich_offers_with_dates http pw b hb offers = some l ∧
      l.length = offers.length ∧
      ∀ j, j < offers.length →
        ((l.getD j default).title = (offers.getD j default).title ∧
         (l.getD j default).link = (offers.getD j default).link ∧
         (l.getD j default).price = (offers.getD j default).price ∧
         (l.getD j default).destination = (offers.getD j default).destination ∧
         (l.getD j default).scraped_at = (offers.getD j default).scraped_at) ∧
        ((l.getD j default).dates = (offers.getD j default).dates ∨
         ∃ a c, (l.getD j default).dates = a ++ " - " ++ c) := by
  refine ⟨mapIdxFrom (enrichOne http pw) 0 offers, ?_, mapIdxFrom_length _ offers 0, ?_⟩
  · unfold enrich_offers_with_dates
    rw [if_neg (by simpa using hne), enrichGo_eq]
  · intro j hj
    rw [mapIdxFrom_getD _ offers 0 j hj]
    have hf := enrichOne_frame http pw (0 + j) (offers.getD j default)
    exact ⟨⟨hf.1, hf.2.1, hf.2.2.1, hf.2.2.2.1, hf.2.2.2.2.1⟩, hf.2.2.2.2.2⟩

/-- A concrete offer for the C7 witness. -/
def bOffer0 : BOffer := ⟨"t", "l", "p", "d", "dest", "s"⟩

/-- Witness for `enrich_offers_amended` at the one-element list `[bOffer0]`
with batch size 1 and oracles that never return dates. -/
theorem enrich_offers_amended_witness :
    ∃ l, enrich_offers_with_dates noFetch noFetch 1 Nat.one_pos [bOffer0] = some l ∧
      l.length = [bOffer0].length ∧
      ∀ j, j < [bOffer0].length →
        ((l.getD j default).title = ([bOffer0].getD j default).title ∧
         (l.getD j default).link = ([bOffer0].getD j default).link ∧
         (l.getD j default).price = ([bOffer0].getD j default).price ∧
         (l.getD j default).destination = ([bOffer0].getD j default).destination ∧
         (l.getD j default).scraped_at = ([bOffer0].getD j default).scraped_at) ∧
        ((l.getD j default).dates = ([bOffer0].getD j default).dates ∨
         ∃ a c, (l.getD j default).dates = a ++ " - " ++ c) :=
  enrich_offers_amended noFetch noFetch 1 Nat.one_pos [bOffer0] (by simp)

/-! ### Claim C5 -/

theorem parseTwoDigit_bounds {lo hi : ℕ} {l : List Char} {n : ℕ} {r : List Char}
    (h : parseTwoDigit lo hi l = some (n, r)) : lo ≤ n ∧ n ≤ hi := by
  unfold parseTwoDigit at h
  dsimp only at h
  split at h
  · split at h
    · next hb =>
        simp only [Option.some.injEq, Prod.mk.injEq] at h
        exact h.1 ▸ hb
    · exact absurd h (by simp)
  · exact absurd h (by simp)


theorem parseDMY_valid {s : String} {d : Date} (h : parseDMY s = some d) :
    validDate d := by
  unfold parseDMY at h
  split at h <;> try exact Option.noConfusion h
  rename_i dd r1 hday
  split at h <;> try exact Option.noConfusion h
  rename_i r2 hr1
  split at h <;> try exact Option.noConfusion h
  rename_i m r3 hmon
  split at h <;> try exact Option.noConfusion h
  rename_i r4 hr3
  dsimp only at h
  split at h <;> try exact Option.noConfusion h
  rename_i hys
  split at h <;> try exact Option.noConfusion h
  rename_i hy
  simp only [Option.some.injEq] at h
  subst h
  obtain ⟨hd1, hd2⟩ := parseTwoDigit_bounds hday
  obtain ⟨hm1, hm2⟩ := parseTwoDigit_bounds hmon
  exact ⟨hy.1, hm1, hm2, hd1, hy.2⟩



theorem splitFirst_decomp {sep : List Char} :
    ∀ {l a b : List Char}, splitFirst sep l = some (a, b) → l = a ++ sep ++ b := by
  intro l
  induction l with
  | nil => intro a b h; simp [splitFirst] at h
  | cons c rest ih =>
      intro a b h
      simp only [splitFirst] at h
      by_cases hp : sep.isPrefixOf (c :: rest)
      · simp only [hp, if_pos] at h
        obtain ⟨t, ht⟩ := List.isPrefixOf_iff_prefix.mp hp
        simp only [Option.some.injEq, Prod.mk.injEq] at h
        obtain ⟨ha, hb⟩ := h
        subst ha
        rw [← hb, ← ht, List.nil_append, List.drop_left]
      · simp only [hp, if_neg, Bool.false_eq_true, not_false_iff] at h
        cases hsf : splitFirst sep rest with
        | none => rw [hsf] at h; exact Option.noConfusion h
        | some p =>
            obtain ⟨a', b'⟩ := p
            rw [hsf] at h
            simp only [Option.some.injEq, Prod.mk.injEq] at h
            obtain ⟨ha, hb⟩ := h
            subst hb
            rw [← ha, List.cons_append, List.cons_append, ih hsf]

theorem pySplit_two {s p1 p2 : String} (h : pySplit " - " s = [p1, p2]) :
    ¬(s = "" ∨ ¬ pyIn "-" s = true) := by
  have hsep : (" - " : String).toList ≠ [] := by decide
  unfold pySplit at h
  rw [dif_neg hsep] at h
  rw [pySplitOn_eq] at h
  rcases hsf : splitFirst (" - ").toList s.toList with _ | ⟨a, b⟩
  · rw [hsf] at h
    simp at h
  · rw [hsf] at h
    have hdec := splitFirst_decomp hsf
    have hinf : ['-'] <:+: s.toList := by
      refine ⟨a ++ [' '], ' ' :: b, ?_⟩
      rw [hdec]
      simp
    intro hc
    rcases hc with hc | hc
    · rw [hc] at hdec
      simp at hdec
    · apply hc
      unfold pyIn
      simpa using hinf

theorem fixDateOne_eq_patch {o : RawOffer} {st : Date} {n : ℕ}
    (h : patchInfo o = some (st, n)) :
    fixDateOne o = dictSet o "dates"
      (formatDMY st ++ " - " ++ formatDMY (addDays st (n - 1))) := by
  unfold patchInfo at h
  split at h <;> try exact Option.noConfusion h
  rename_i p1 p2 hsp
  split at h <;> try exact Option.noConfusion h
  rename_i st' en hp1 hp2
  split at h <;> try exact Option.noConfusion h
  rename_i m hdur
  split at h <;> try exact Option.noConfusion h
  rename_i hcond
  simp only [Option.some.injEq, Prod.mk.injEq] at h
  obtain ⟨h1, h2⟩ := h
  subst h1
  subst h2
  unfold fixDateOne
  rw [if_neg (pySplit_two hsp), hsp]
  simp only
  rw [hp1, hp2]
  simp only
  rw [hdur]
  simp only
  rw [if_pos hcond.2, if_pos hcond.1]

theorem patchInfo_bounds {o : RawOffer} {st : Date} {n : ℕ}
    (h : patchInfo o = some (st, n)) : validDate st ∧ 1 < n := by
  unfold patchInfo at h
  split at h <;> try exact Option.noConfusion h
  rename_i p1 p2 hsp
  split at h <;> try exact Option.noConfusion h
  rename_i st' en hp1 hp2
  split at h <;> try exact Option.noConfusion h
  rename_i m hdur
  split at h <;> try exact Option.noConfusion h
  rename_i hcond
  simp only [Option.some.injEq, Prod.mk.injEq] at h
  obtain ⟨h1, h2⟩ := h
  subst h1
  subst h2
  exact ⟨parseDMY_valid hp1, hcond.1⟩

theorem fixDateOne_eq_none {o : RawOffer} (h : patchInfo o = none) :
    fixDateOne o = o := by
  unfold fixDateOne
  by_cases hg : rawGet o "dates" = "" ∨ ¬ pyIn "-" (rawGet o "dates") = true
  · rw [if_pos hg]
  · rw [if_neg hg]
    unfold patchInfo at h
    split
    · rename_i p1 p2 hsp
      rw [hsp] at h
      simp only at h
      split
      · rename_i st en hp1 hp2
        rw [hp1, hp2] at h
        simp only at h
        split
        · rename_i m hdur
          rw [hdur] at h
          simp only at h
          by_cases habs :
              1 < ((toOrdinal en : ℤ) - (toOrdinal st : ℤ) + 1 - (m : ℤ)).natAbs
          · rw [if_pos habs]
            by_cases hm : 1 < m
            · rw [if_pos ⟨hm, habs⟩] at h
              exact Option.noConfusion h
            · rw [if_neg hm]
          · rw [if_neg habs]
        · rfl
      · rfl
    · rfl


/-- **C5.**  `fix_date_inconsistencies` maps `fixDateOne` over the offers;
an offer satisfying the claim's patch condition (`patchInfo` some: the dates
split as `DD.MM.YYYY - DD.MM.YYYY`, the title states `N > 1` days or nights,
and `N` differs from the range's inclusive day count by more than one) gets
its dates rewritten to the range from `start` to `start + (N − 1)` days,
whose inclusive day count is exactly `N`; every other offer is returned
unchanged. -/
theorem fix_date_spec (offers : List RawOffer) (o : RawOffer) :
    fix_date_inconsistencies offers = offers.map fixDateOne ∧
    (patchInfo o = none → fixDateOne o = o) ∧
    ∀ st n, patchInfo o = some (st, n) →
      fixDateOne o = dictSet o "dates"
        (formatDMY st ++ " - " ++ formatDMY (addDays st (n - 1))) ∧
      toOrdinal (addDays st (n - 1)) + 1 = toOrdinal st + n := by
  refine ⟨rfl, fixDateOne_eq_none, ?_⟩
  intro st n h
  obtain ⟨hv, hn⟩ := patchInfo_bounds h
  refine ⟨fixDateOne_eq_patch h, ?_⟩
  rw [toOrdinal_addDays hv]
  omega

/-- A concrete offer patched by `fix_date_inconsistencies`: the range spans
ten days but the title says five. -/
def offer5 : RawOffer :=
  [("title", "Почивка 5 дни"), ("dates", "01.06.2025 - 10.06.2025")]

/-- Witness for `fix_date_spec`: on `offer5` the patch condition holds with
start `01.06.2025` and `N = 5`, and the theorem rewrites the end date. -/
theorem fix_date_spec_witness :
    fixDateOne offer5 = dictSet offer5 "dates"
      (formatDMY ⟨1, 6, 2025⟩ ++ " - " ++ formatDMY (addDays ⟨1, 6, 2025⟩ (5 - 1))) ∧
    toOrdinal (addDays (⟨1, 6, 2025⟩ : Date) (5 - 1)) + 1 =
      toOrdinal ⟨1, 6, 2025⟩ + 5 :=
  (fix_date_spec [] offer5).2.2 ⟨1, 6, 2025⟩ 5 (by decide)

/-! ### Claim C8 -/

theorem matchNatAt_none_of_nondigit {c : Char} (cs : List Char) (hc : c.isDigit = false) :
    matchNatAt (c :: cs) = none := by
  unfold matchNatAt
  simp [List.takeWhile, hc]

theorem matchNatAt_nil : matchNatAt [] = none := rfl

theorem matchNatAt_complete {ds r : List Char} (hds : ds ≠ [])
    (hd : ∀ c ∈ ds, c.isDigit = true) (hr : headIs (fun c => c.isDigit = false) r) :
    matchNatAt (ds ++ r) = some (natOfDigits ds) := by
  unfold matchNatAt
  dsimp only
  obtain ⟨h1, h2⟩ := takeWhile_app Char.isDigit ds r hd hr
  rw [h1, if_neg (by simpa [List.isEmpty_iff] using hds)]

theorem findNat_value {pre ds rest : List Char} (hpre : ∀ c ∈ pre, c.isDigit = false)
    (hds : ds ≠ []) (hd : ∀ c ∈ ds, c.isDigit = true)
    (hr : headIs (fun c => c.isDigit = false) rest) :
    findNat (pre ++ (ds ++ rest)) = some (natOfDigits ds) := by
  unfold findNat
  rw [firstMatch_skip (fun c cs hc => matchNatAt_none_of_nondigit cs hc) hpre]
  have hcm := matchNatAt_complete hds hd hr
  cases hless : ds ++ rest with
  | nil =>
      exfalso
      cases ds with
      | nil => exact hds rfl
      | cons a b => simp at hless
  | cons c cs =>
      rw [← hless]
      conv_lhs => rw [hless, firstMatch]
      rw [← hless, hcm]

theorem matchNatTokAt_nondigit (toks : List (List Char)) {c : Char} (cs : List Char)
    (hc : c.isDigit = false) : matchNatTokAt toks (c :: cs) = none := by
  unfold matchNatTokAt
  simp [List.takeWhile, hc]

theorem matchNatTokAt_nil (toks : List (List Char)) : matchNatTokAt toks [] = none := rfl

theorem matchNatTokAt_complete {toks : List (List Char)} {ds sp tok rest : List Char}
    (hds : ds ≠ []) (hd : ∀ c ∈ ds, c.isDigit = true)
    (hsp : ∀ c ∈ sp, isPySpace c = true) (htok : tok ∈ toks) (hth : tokHeadOk tok) :
    matchNatTokAt toks (ds ++ (sp ++ (tok ++ rest))) = some (natOfDigits ds) := by
  have hr := @headIs_sp_tok sp tok rest hsp hth
  rw [List.append_assoc] at hr
  unfold matchNatTokAt
  dsimp only
  obtain ⟨h1, h2⟩ := takeWhile_app Char.isDigit ds (sp ++ (tok ++ rest)) hd
    (headIs_weaken hr)
  rw [h1, if_neg (by simpa [List.isEmpty_iff] using hds), h2,
    dropSpaces_sp_tok hsp hth]
  have hany : (toks.any fun t => t.isPrefixOf (tok ++ rest)) = true :=
    List.any_eq_true.mpr ⟨tok, htok,
      List.isPrefixOf_iff_prefix.mpr (List.prefix_append tok rest)⟩
  rw [if_pos hany]

/-- An occurrence, somewhere in `l`, of the duration pattern `NUM \s* tok`
for one of the alternatives `toks`: the declarative reading of the duration
regexes of `parse_duration`. -/
def NatTokOcc (toks : List (List Char)) (l : List Char) : Prop :=
  ∃ pre ds sp tok rest, l = pre ++ (ds ++ (sp ++ (tok ++ rest))) ∧ ds ≠ [] ∧
    (∀ c ∈ ds, c.isDigit = true) ∧ (∀ c ∈ sp, isPySpace c = true) ∧ tok ∈ toks

theorem matchNatTokAt_sound {toks : List (List Char)} {l : List Char} {n : ℕ}
    (h : matchNatTokAt toks l = some n) :
    ∃ ds sp tok rest, l = ds ++ (sp ++ (tok ++ rest)) ∧ ds ≠ [] ∧
      (∀ c ∈ ds, c.isDigit = true) ∧ (∀ c ∈ sp, isPySpace c = true) ∧ tok ∈ toks ∧
      n = natOfDigits ds := by
  unfold matchNatTokAt at h
  dsimp only at h
  split at h
  · exact Option.noConfusion h
  · next he =>
      split at h
      · next ha =>
          simp only [Option.some.injEq] at h
          obtain ⟨tok, htok, hpref⟩ := List.any_eq_true.mp ha
          obtain ⟨rest2, hr2⟩ := List.isPrefixOf_iff_prefix.mp hpref
          refine ⟨l.takeWhile Char.isDigit,
            (l.dropWhile Char.isDigit).takeWhile isPySpace, tok, rest2, ?_,
            by simpa [List.isEmpty_iff] using he, mem_takeWhile_p _ _,
            mem_takeWhile_p _ _, htok, h.symm⟩
          have hsp := List.takeWhile_append_dropWhile isPySpace (l.dropWhile Char.isDigit)
          have hl := List.takeWhile_append_dropWhile Char.isDigit l
          conv_lhs => rw [← hl]
          conv_lhs => rw [← hsp]
          rw [hr2]
          rfl
      · exact Option.noConfusion h

theorem findNatTok_none_of_not_occ {toks : List (List Char)} {l : List Char}
    (h : ¬ NatTokOcc toks l) : findNatTok toks l = none := by
  cases hfm : findNatTok toks l with
  | none => rfl
  | some n =>
      exfalso
      obtain ⟨pre, suf, hl, hs⟩ := firstMatch_sound hfm
      obtain ⟨ds, sp, tok, rest, hdec, hds, hd, hsp, htok, _⟩ := matchNatTokAt_sound hs
      exact h ⟨pre, ds, sp, tok, rest, by rw [hl, hdec], hds, hd, hsp, htok⟩

theorem natTokOcc_implies_some {toks : List (List Char)} {l : List Char}
    (hocc : NatTokOcc toks l) (hth : ∀ t ∈ toks, tokHeadOk t) :
    findNatTok toks l ≠ none := by
  obtain ⟨pre, ds, sp, tok, rest, hdec, hds, hd, hsp, htok⟩ := hocc
  have hc := @matchNatTokAt_complete toks ds sp tok rest hds hd hsp htok (hth tok htok)
  have h2 := firstMatch_isSome (matchNatTokAt_nil toks) pre hc
  unfold findNatTok
  rw [hdec]
  exact h2

theorem findNatTok_value {toks : List (List Char)} {pre ds sp tok rest : List Char}
    (hpre : ∀ c ∈ pre, c.isDigit = false) (hds : ds ≠ [])
    (hd : ∀ c ∈ ds, c.isDigit = true) (hsp : ∀ c ∈ sp, isPySpace c = true)
    (htok : tok ∈ toks) (hth : tokHeadOk tok) :
    findNatTok toks (pre ++ (ds ++ (sp ++ (tok ++ rest)))) = some (natOfDigits ds) := by
  unfold findNatTok
  rw [firstMatch_skip (fun c cs hc => matchNatTokAt_nondigit toks cs hc) hpre]
  have hcm := @matchNatTokAt_complete toks ds sp tok rest hds hd hsp htok hth
  cases hless : ds ++ (sp ++ (tok ++ rest)) with
  | nil =>
      exfalso
      cases ds with
      | nil => exact hds rfl
      | cons a b => simp at hless
  | cons c cs =>
      rw [← hless]
      conv_lhs => rw [hless, firstMatch]
      rw [← hless, hcm]

theorem durNone {dur : String} (h : dur = "" ∨ findNat dur.toList = none) :
    (if dur = "" then none else findNat dur.toList) = none := by
  rcases h with h | h
  · rw [if_pos h]
  · by_cases he : dur = ""
    · rw [if_pos he]
    · rw [if_neg he]; exact h

theorem titNone1 {title : String}
    (h : title = "" ∨ (¬ NatTokOcc [tokNight] (pyLower title).toList ∧
      ¬ NatTokOcc [tokDays] (pyLower title).toList ∧
      ¬ NatTokOcc [tokDaysEn] (pyLower title).toList)) :
    (if title = "" then none
     else findNatTok [tokNight] (pyLower title).toList) = none := by
  rcases h with h | h
  · rw [if_pos h]
  · by_cases he : title = ""
    · rw [if_pos he]
    · rw [if_neg he]; exact findNatTok_none_of_not_occ h.1

theorem titNone2 {title : String}
    (h : title = "" ∨ (¬ NatTokOcc [tokNight] (pyLower title).toList ∧
      ¬ NatTokOcc [tokDays] (pyLower title).toList ∧
      ¬ NatTokOcc [tokDaysEn] (pyLower title).toList)) :
    (if title = "" then none
     else findNatTok [tokDays] (pyLower title).toList) = none := by
  rcases h with h | h
  · rw [if_pos h]
  · by_cases he : title = ""
    · rw [if_pos he]
    · rw [if_neg he]; exact findNatTok_none_of_not_occ h.2.1

theorem titNone3 {title : String}
    (h : title = "" ∨ (¬ NatTokOcc [tokNight] (pyLower title).toList ∧
      ¬ NatTokOcc [tokDays] (pyLower title).toList ∧
      ¬ NatTokOcc [tokDaysEn] (pyLower title).toList)) :
    (if title = "" then none
     else findNatTok [tokDaysEn] (pyLower title).toList) = none := by
  rcases h with h | h
  · rw [if_pos h]
  · by_cases he : title = ""
    · rw [if_pos he]
    · rw [if_neg he]; exact findNatTok_none_of_not_occ h.2.2

theorem descNone1 {desc : String}
    (h : desc = "" ∨ (¬ NatTokOcc [tokNight] (pyLower desc).toList ∧
      ¬ NatTokOcc [tokDays] (pyLower desc).toList)) :
    (if desc = "" then none
     else findNatTok [tokNight] (pyLower desc).toList) = none := by
  rcases h with h | h
  · rw [if_pos h]
  · by_cases he : desc = ""
    · rw [if_pos he]
    · rw [if_neg he]; exact findNatTok_none_of_not_occ h.1

theorem descNone2 {desc : String}
    (h : desc = "" ∨ (¬ NatTokOcc [tokNight] (pyLower desc).toList ∧
      ¬ NatTokOcc [tokDays] (pyLower desc).toList)) :
    (if desc = "" then none
     else findNatTok [tokDays] (pyLower desc).toList) = none := by
  rcases h with h | h
  · rw [if_pos h]
  · by_cases he : desc = ""
    · rw [if_pos he]
    · rw [if_neg he]; exact findNatTok_none_of_not_occ h.2

/-- The duration rule as the claim words it: the first number adjacent to any
of the three duration tokens in the string, plus one when the string mentions
nights (`нощув`) — the claim-side reading of the title fallback. -/
def claimFirstDur (s : String) : Option ℕ :=
  match findNatTok [tokNight, tokDays, tokDaysEn] (pyLower s).toList with
  | some n => if pyIn "нощув" (pyLower s) then some (n + 1) else some n
  | none => none

/-- **C8, counterexample.**  For the title `"5 дни 3 нощувки"` (and no
duration string), the claim's rule — take the first recognized number of the
title, here 5, and add one because the title mentions nights — gives 6, but
`parse_duration` returns 4: the code searches the `нощув` pattern before the
`дни` pattern, so the 3 wins. -/
theorem parse_duration_counterexample :
    parse_duration "" "5 дни 3 нощувки" "" "Dari Tour" = some 4 ∧
    claimFirstDur "5 дни 3 нощувки" = some 6 ∧ (4 : ℕ) ≠ 6 :=
  ⟨by decide, by decide, by decide⟩

/-- **C8 (amended).**  `parse_duration` behaves as follows.  (a) When the
duration string is nonempty and contains a number (first maximal digit run
`ds` after a digit-free prefix), it returns that number, plus one exactly
when the duration string contains `нощув`.  (b)–(d) When the duration string
is empty or has no number, the lower-cased title is searched for
`NUM \s* нощув` (returning the number plus one), then `NUM \s* дни`, then
`NUM \s* day` (returning the number unchanged) — each pattern only reached
when no occurrence of the earlier ones exists anywhere in the title.
(e)–(f) When the title is empty or has none of the three patterns, the
description is searched the same way for `нощув`, then `дни` (there is no
English fallback for the description).  (g) When none of the three sources
yields a match, the result is `None`. -/
theorem parse_duration_amended (dur title desc ag : String) :
    (dur ≠ "" →
      ∀ pre ds rest, dur.toList = pre ++ (ds ++ rest) →
      (∀ c ∈ pre, c.isDigit = false) → ds ≠ [] → (∀ c ∈ ds, c.isDigit = true) →
      headIs (fun c => c.isDigit = false) rest →
      parse_duration dur title desc ag =
        some (if pyIn "нощув" (pyLower dur) then natOfDigits ds + 1
          else natOfDigits ds)) ∧
    ((dur = "" ∨ findNat dur.toList = none) → title ≠ "" →
      ∀ pre ds sp rest,
      (pyLower title).toList = pre ++ (ds ++ (sp ++ (tokNight ++ rest))) →
      (∀ c ∈ pre, c.isDigit = false) → ds ≠ [] → (∀ c ∈ ds, c.isDigit = true) →
      (∀ c ∈ sp, isPySpace c = true) →
      parse_duration dur title desc ag = some (natOfDigits ds + 1)) ∧
    ((dur = "" ∨ findNat dur.toList = none) → title ≠ "" →
      ¬ NatTokOcc [tokNight] (pyLower title).toList →
      ∀ pre ds sp rest,
      (pyLower title).toList = pre ++ (ds ++ (sp ++ (tokDays ++ rest))) →
      (∀ c ∈ pre, c.isDigit = false) → ds ≠ [] → (∀ c ∈ ds, c.isDigit = true) →
      (∀ c ∈ sp, isPySpace c = true) →
      parse_duration dur title desc ag = some (natOfDigits ds)) ∧
    ((dur = "" ∨ findNat dur.toList = none) → title ≠ "" →
      ¬ NatTokOcc [tokNight] (pyLower title).toList →
      ¬ NatTokOcc [tokDays] (pyLower title).toList →
      ∀ pre ds sp rest,
      (pyLower title).toList = pre ++ (ds ++ (sp ++ (tokDaysEn ++ rest))) →
      (∀ c ∈ pre, c.isDigit = false) → ds ≠ [] → (∀ c ∈ ds, c.isDigit = true) →
      (∀ c ∈ sp, isPySpace c = true) →
      parse_duration dur title desc ag = some (natOfDigits ds)) ∧
    ((dur = "" ∨ findNat dur.toList = none) →
      (title = "" ∨ (¬ NatTokOcc [tokNight] (pyLower title).toList ∧
        ¬ NatTokOcc [tokDays] (pyLower title).toList ∧
        ¬ NatTokOcc [tokDaysEn] (pyLower title).toList)) → desc ≠ "" →
      ∀ pre ds sp rest,
      (pyLower desc).toList = pre ++ (ds ++ (sp ++ (tokNight ++ rest))) →
      (∀ c ∈ pre, c.isDigit = false) → ds ≠ [] → (∀ c ∈ ds, c.isDigit = true) →
      (∀ c ∈ sp, isPySpace c = true) →
      parse_duration dur title desc ag = some (natOfDigits ds + 1)) ∧
    ((dur = "" ∨ findNat dur.toList = none) →
      (title = "" ∨ (¬ NatTokOcc [tokNight] (pyLower title).toList ∧
        ¬ NatTokOcc [tokDays] (pyLower title).toList ∧
        ¬ NatTokOcc [tokDaysEn] (pyLower title).toList)) → desc ≠ "" →
      ¬ NatTokOcc [tokNight] (pyLower desc).toList →
      ∀ pre ds sp rest,
      (pyLower desc).toList = pre ++ (ds ++ (sp ++ (tokDays ++ rest))) →
      (∀ c ∈ pre, c.isDigit = false) → ds ≠ [] → (∀ c ∈ ds, c.isDigit = true) →
      (∀ c ∈ sp, isPySpace c = true) →
      parse_duration dur title desc ag = some (natOfDigits ds)) ∧
    ((dur = "" ∨ findNat dur.toList = none) →
      (title = "" ∨ (¬ NatTokOcc [tokNight] (pyLower title).toList ∧
        ¬ NatTokOcc [tokDays] (pyLower title).toList ∧
        ¬ NatTokOcc [tokDaysEn] (pyLower title).toList)) →
      (desc = "" ∨ (¬ NatTokOcc [tokNight] (pyLower desc).toList ∧
        ¬ NatTokOcc [tokDays] (pyLower desc).toList)) →
      parse_duration dur title desc ag = none) := by
  have tN : tokHeadOk tokNight := ⟨by decide, by decide, by decide⟩
  have tD : tokHeadOk tokDays := ⟨by decide, by decide, by decide⟩
  have tE : tokHeadOk tokDaysEn := ⟨by decide, by decide, by decide⟩
  have hmem : ∀ t : List Char, t ∈ [t] := fun t => List.mem_singleton.mpr rfl
  refine ⟨?_, ?_, ?_, ?_, ?_, ?_, ?_⟩
  · intro hne pre ds rest hdec hpre hds hd hr
    unfold parse_duration
    rw [if_neg hne, hdec, findNat_value hpre hds hd hr]
    dsimp only
    split <;> rfl
  · intro hdur htit pre ds sp rest hdec hpre hds hd hsp
    unfold parse_duration
    rw [durNone hdur]
    dsimp only
    rw [ if_neg htit, hdec,
      findNatTok_value hpre hds hd hsp (hmem tokNight) tN]
  · intro hdur htit hno pre ds sp rest hdec hpre hds hd hsp
    unfold parse_duration
    rw [durNone hdur]
    dsimp only
    rw [ if_neg htit, findNatTok_none_of_not_occ hno, if_neg htit, hdec,
      findNatTok_value hpre hds hd hsp (hmem tokDays) tD]
  · intro hdur htit hno hnd pre ds sp rest hdec hpre hds hd hsp
    unfold parse_duration
    rw [durNone hdur]
    dsimp only
    rw [ if_neg htit, findNatTok_none_of_not_occ hno, if_neg htit,
      findNatTok_none_of_not_occ hnd, if_neg htit, hdec,
      findNatTok_value hpre hds hd hsp (hmem tokDaysEn) tE]
  · intro hdur htit hdesc pre ds sp rest hdec hpre hds hd hsp
    unfold parse_duration
    rw [durNone hdur]
    dsimp only
    rw [ titNone1 htit, titNone2 htit, titNone3 htit, if_neg hdesc, hdec,
      findNatTok_value hpre hds hd hsp (hmem tokNight) tN]
  · intro hdur htit hdesc hno pre ds sp rest hdec hpre hds hd hsp
    unfold parse_duration
    rw [durNone hdur]
    dsimp only
    rw [ titNone1 htit, titNone2 htit, titNone3 htit, if_neg hdesc,
      findNatTok_none_of_not_occ hno, if_neg hdesc, hdec,
      findNatTok_value hpre hds hd hsp (hmem tokDays) tD]
  · intro hdur htit hdesc
    unfold parse_duration
    rw [durNone hdur]
    dsimp only
    rw [ titNone1 htit, titNone2 htit, titNone3 htit,
      descNone1 hdesc, descNone2 hdesc]

theorem not_natTokOcc_of_none {t l : List Char} (hth : tokHeadOk t)
    (h : findNatTok [t] l = none) : ¬ NatTokOcc [t] l := by
  intro hocc
  refine natTokOcc_implies_some hocc ?_ h
  intro x hx
  rcases List.mem_singleton.mp hx with rfl
  exact hth

/-- Witness for `parse_duration_amended`: each clause applied at a concrete
input. -/
theorem parse_duration_amended_witness :
    parse_duration "5 нощувки" "" "" "X" = some 6 ∧
    parse_duration "" "3 нощувки" "" "X" = some 4 ∧
    parse_duration "" "7 дни" "" "X" = some 7 ∧
    parse_duration "" "2 days" "" "X" = some 2 ∧
    parse_duration "" "" "4 нощувки" "X" = some 5 ∧
    parse_duration "" "" "6 дни" "X" = some 6 ∧
    parse_duration "" "" "" "X" = none := by
  have tN : tokHeadOk tokNight := ⟨by decide, by decide, by decide⟩
  have tD : tokHeadOk tokDays := ⟨by decide, by decide, by decide⟩
  have tE : tokHeadOk tokDaysEn := ⟨by decide, by decide, by decide⟩
  have hnN7 : ¬ NatTokOcc [tokNight] (pyLower "7 дни").toList :=
    not_natTokOcc_of_none tN (by decide)
  have hnN2 : ¬ NatTokOcc [tokNight] (pyLower "2 days").toList :=
    not_natTokOcc_of_none tN (by decide)
  have hnD2 : ¬ NatTokOcc [tokDays] (pyLower "2 days").toList :=
    not_natTokOcc_of_none tD (by decide)
  have hnN6 : ¬ NatTokOcc [tokNight] (pyLower "6 дни").toList :=
    not_natTokOcc_of_none tN (by decide)
  refine ⟨?_, ?_, ?_, ?_, ?_, ?_, ?_⟩
  · have h := (parse_duration_amended "5 нощувки" "" "" "X").1 (by decide)
      [] ['5'] (' ' :: "нощувки".toList) (by decide) (by decide) (by decide) (by decide)
      (by show (' ' : Char).isDigit = false
          decide)
    exact h.trans (by decide)
  · have h := (parse_duration_amended "" "3 нощувки" "" "X").2.1 (Or.inl rfl)
      (by decide) [] ['3'] [' '] ['к', 'и'] (by decide) (by decide) (by decide) (by decide)
      (by decide)
    exact h.trans (by decide)
  · have h := (parse_duration_amended "" "7 дни" "" "X").2.2.1 (Or.inl rfl)
      (by decide) hnN7 [] ['7'] [' '] [] (by decide) (by decide) (by decide) (by decide)
      (by decide)
    exact h.trans (by decide)
  · have h := (parse_duration_amended "" "2 days" "" "X").2.2.2.1 (Or.inl rfl)
      (by decide) hnN2 hnD2 [] ['2'] [' '] ['s'] (by decide) (by decide) (by decide)
      (by decide) (by decide)
    exact h.trans (by decide)
  · have h := (parse_duration_amended "" "" "4 нощувки" "X").2.2.2.2.1 (Or.inl rfl)
      (Or.inl rfl) (by decide) [] ['4'] [' '] ['к', 'и'] (by decide) (by decide) (by decide)
      (by decide) (by decide)
    exact h.trans (by decide)
  · have h := (parse_duration_amended "" "" "6 дни" "X").2.2.2.2.2.1 (Or.inl rfl)
      (Or.inl rfl) (by decide) hnN6 [] ['6'] [' '] [] (by decide) (by decide)
      (by decide) (by decide) (by decide)
    exact h.trans (by decide)
  · exact (parse_duration_amended "" "" "" "X").2.2.2.2.2.2 (Or.inl rfl) (Or.inl rfl)
      (Or.inl rfl)


/-! ### Claim C6 -/

set_option maxRecDepth 4000 in
theorem crawlLoop_spec (fetch : String → Option CrawlPage) (isDetail : String → Bool)
    (maxPages : ℕ) :
    ∀ (visited : Finset String) (queue : List String) (listings : List String)
      (h : visited.card + queue.length ≤ 300),
      ((crawlLoop fetch isDetail maxPages visited queue listings h).2.1.Nodup ∧
        ∀ u ∈ (crawlLoop fetch isDetail maxPages visited queue listings h).2.1,
          u ∉ visited) ∧
      ∀ s ∈ (crawlLoop fetch isDetail maxPages visited queue listings h).2.2, s ≤ 300 := by
  intro visited queue listings h
  induction visited, queue, listings, h using crawlLoop.induct fetch isDetail maxPages with
  | case1 visited listings h h2 =>
      rw [crawlLoop]
      simp
  | case2 visited listings url rest h hmax h2 =>
      rw [crawlLoop]
      simp [hmax]
  | case3 visited listings url rest h hmax hv h2 ih =>
      rw [crawlLoop]
      simp only [if_neg hmax, dif_pos hv]
      refine ⟨ih.1, ?_⟩
      intro s hs
      rcases List.mem_cons.mp hs with rfl | hs2
      · exact h
      · exact ih.2 s hs2
  | case4 visited listings url rest h hmax hv hcard h1 hfetch h2 ih =>
      rw [crawlLoop]
      simp only [if_neg hmax, dif_neg hv, hfetch]
      refine ⟨⟨?_, ?_⟩, ?_⟩
      · rw [List.nodup_cons]
        refine ⟨fun hmem => ?_, ih.1.1⟩
        exact (ih.1.2 url hmem) (Finset.mem_insert_self url visited)
      · intro u hu
        rcases List.mem_cons.mp hu with rfl | hu2
        · exact hv
        · intro hmem
          exact (ih.1.2 u hu2) (Finset.mem_insert_of_mem hmem)
      · intro s hs
        rcases List.mem_cons.mp hs with rfl | hs2
        · exact h
        · exact ih.2 s hs2
  | case5 visited listings url rest h hmax hv hcard h1 page hfetch listings2 h2 ih =>
      rw [crawlLoop]
      simp only [if_neg hmax, dif_neg hv, hfetch]
      refine ⟨⟨?_, ?_⟩, ?_⟩
      · rw [List.nodup_cons]
        refine ⟨fun hmem => ?_, ih.1.1⟩
        exact (ih.1.2 url hmem) (Finset.mem_insert_self url visited)
      · intro u hu
        rcases List.mem_cons.mp hu with rfl | hu2
        · exact hv
        · intro hmem
          exact (ih.1.2 u hu2) (Finset.mem_insert_of_mem hmem)
      · intro s hs
        rcases List.mem_cons.mp hs with rfl | hs2
        · exact h
        · exact ih.2 s hs2

/-- **C6.**  `discover_listing_pages` terminates for every link graph — it is
a total function of the oracle `fetch` (the recursion is well-founded by the
300-bound) — and: it never fetches the same URL twice (the trace of processed
URLs has no duplicate), `len(visited) + len(queue)` is at most 300 at the
start of every iteration, and the returned listing list has at most
`max_pages` entries. -/
theorem discover_listing_pages_spec (fetch : String → Option CrawlPage)
    (isDetail : String → Bool) (maxPages : ℕ) :
    (discover_listing_pages fetch isDetail maxPages).1.length ≤ maxPages ∧
    (discover_listing_pages fetch isDetail maxPages).2.1.Nodup ∧
    ((discover_listing_pages fetch isDetail maxPages).2.2.all
      (fun s => decide (s ≤ 300))) = true := by
  have hs := crawlLoop_spec fetch isDetail maxPages ∅ [aventuraStart] [] (by simp)
  refine ⟨?_, hs.1.1, ?_⟩
  · show ((dedupStringsGo [] _).take maxPages).length ≤ maxPages
    rw [List.length_take]
    exact min_le_left _ _
  · rw [List.all_eq_true]
    intro s hsm
    exact decide_eq_true (hs.2 s hsm)


end TravelOffers
